import Mathlib

/-!
Verification of the news-pipeline specification against the source of
`the-eye` (Philippine news-intelligence pipeline).

The development shallowly embeds the relevant parts of the code base:

* `backend/app/pipeline/store.py` — the funds classifier
  (`classify_is_funds` with its regex patterns), the URL canonicalizer
  (`_canonicalize_url`, on top of a faithful model of CPython's
  `urllib.parse.urlparse` / `urlunparse`), and the storage routine
  `insert_articles` (state-passing over a datastore modelled from the spec).
* `backend/app/ml/bias.py` — the VADER sentiment labelling rule and the
  Philippine political-bias analyzer with its embedded keyword lexicon
  (`keywords_ph.json` is absent from the tree, so the embedded defaults are
  the operative configuration).
* `backend/app/workers/celery_app.py` — the beat schedule.

Python strings are modelled as `List Char`; the ASCII fragments of
`str.lower`, `str.strip`, `str.title` and of the regex classes `\s` and `\w`
are used (all pattern literals of the code are ASCII except `malacañang`,
which is case-invariant under both semantics).  Machine floats in the code
are modelled as `ℚ`; wall-clock timing fields are outside the model.
-/

namespace TheEye

/-! ### Python string primitives -/

/-- Python whitespace as used by `str.strip()` and the regex class `\s`
(ASCII fragment): space, tab, newline, carriage return, vertical tab,
form feed. -/
def isPyWS (c : Char) : Bool :=
  c == ' ' || c == '\t' || c == '\n' || c == '\r' || c == '\x0b' || c == '\x0c'

/-- Python `str.strip()` (ASCII whitespace fragment). -/
def pyStrip (cs : List Char) : List Char :=
  ((cs.dropWhile isPyWS).reverse.dropWhile isPyWS).reverse

/-- ASCII lowercase mapping of one character (codepoints 65–90 map to 97–122,
everything else is fixed): the fragment of Python `str.lower()` exercised by
the code's ASCII pattern literals. -/
def lowerChar (c : Char) : Char :=
  if c.toNat ≥ 65 ∧ c.toNat ≤ 90 then Char.ofNat (c.toNat + 32) else c

/-- Python `str.lower()` over a character list (ASCII fragment). -/
def lowerStr (cs : List Char) : List Char := cs.map lowerChar

theorem toNat_ofNat_of_valid {n : Nat} (h : n.isValidChar) :
    (Char.ofNat n).toNat = n := by
  rw [Char.ofNat, dif_pos h]
  rfl

theorem lowerChar_toNat (c : Char) :
    (lowerChar c).toNat =
      if c.toNat ≥ 65 ∧ c.toNat ≤ 90 then c.toNat + 32 else c.toNat := by
  unfold lowerChar
  split_ifs with h
  · exact toNat_ofNat_of_valid (Or.inl (by omega))
  · rfl

theorem lowerChar_idem (c : Char) : lowerChar (lowerChar c) = lowerChar c := by
  unfold lowerChar
  split_ifs with h1 h2
  · exfalso
    rw [toNat_ofNat_of_valid (Or.inl (by omega))] at h2
    omega
  · rfl
  · rfl

theorem char_toNat_inj {a b : Char} (h : a.toNat = b.toNat) : a = b := by
  apply Char.eq_of_val_eq
  apply UInt32.eq_of_toBitVec_eq
  exact BitVec.eq_of_toNat_eq h

/-- Characters are equal exactly when their codepoints are. -/
theorem char_eq_iff_toNat {c d : Char} : c = d ↔ c.toNat = d.toNat :=
  ⟨congrArg Char.toNat, char_toNat_inj⟩

/-- `lowerChar` reaches a character that is neither an uppercase nor a
lowercase ASCII letter only from that same character; in particular it
creates or destroys no URL delimiter. -/
theorem lowerChar_eq_iff {c d : Char}
    (hd : ¬(65 ≤ d.toNat ∧ d.toNat ≤ 90) ∧ ¬(97 ≤ d.toNat ∧ d.toNat ≤ 122)) :
    (lowerChar c = d ↔ c = d) := by
  constructor
  · intro h
    unfold lowerChar at h
    by_cases hc : c.toNat ≥ 65 ∧ c.toNat ≤ 90
    · rw [if_pos hc] at h
      exfalso
      have := congrArg Char.toNat h
      rw [toNat_ofNat_of_valid (Or.inl (by omega))] at this
      omega
    · rwa [if_neg hc] at h
  · intro h
    subst h
    unfold lowerChar
    rw [if_neg (by omega)]

theorem lowerStr_idem (cs : List Char) : lowerStr (lowerStr cs) = lowerStr cs := by
  simp [lowerStr, List.map_map, Function.comp_def, lowerChar_idem]

/-! ### A miniature matcher for the regex fragment used in `store.py`

The patterns in `store.py` are alternations of token sequences where each
token is a literal string, `\s+`, or (inside `disaster_money_pattern`) a
`.*` that cannot cross a newline (the pattern is compiled without
`re.DOTALL`).  `matchPreF` decides whether a token sequence matches some
prefix of the text; it is structurally recursive on an explicit fuel so
that the kernel can evaluate it (`fuel ≥ pat.length + text.length + 1`
always suffices, see `matchPreF_stable`). -/

/-- One token of the regex fragment: a literal, `\s+`, or a
newline-respecting `.*`. -/
inductive Tok where
  | lit (s : List Char)
  | wsPlus
  | dotStar
deriving DecidableEq

/-- A token sequence (concatenation). -/
abbrev Pat := List Tok

/-- Fuel-bounded matcher: does the token sequence match some prefix of the
text? -/
def matchPreF : Nat → Pat → List Char → Bool
  | 0, _, _ => false
  | _ + 1, [], _ => true
  | f + 1, .lit s :: r, cs => s.isPrefixOf cs && matchPreF f r (cs.drop s.length)
  | _ + 1, .wsPlus :: _, [] => false
  | f + 1, .wsPlus :: r, c :: cs =>
      isPyWS c && (matchPreF f r cs || matchPreF f (.wsPlus :: r) cs)
  | f + 1, .dotStar :: r, cs =>
      matchPreF f r cs ||
        (match cs with
         | [] => false
         | c :: cs => !(c == '\n') && matchPreF f (.dotStar :: r) cs)

/-- Prefix match with sufficient fuel. -/
def matchPre (p : Pat) (cs : List Char) : Bool :=
  matchPreF (p.length + cs.length + 1) p cs

/-- `re.search` for one token sequence: a prefix match at some position. -/
def searchTok (p : Pat) : List Char → Bool
  | [] => matchPre p []
  | c :: cs => matchPre p (c :: cs) || searchTok p cs

/-- `re.search` for an alternation of token sequences. -/
def searchAny (alts : List Pat) (cs : List Char) : Bool :=
  alts.any fun p => searchTok p cs

/-- A single-literal alternative. -/
def lyt (s : String) : Pat := [Tok.lit s.data]

/-- An alternative of the form `a\s+b`. -/
def ws2 (a b : String) : Pat := [Tok.lit a.data, Tok.wsPlus, Tok.lit b.data]

/-! ### The regex patterns of `store.py` -/

/-- `SPORTS` from `store.py`. -/
def sportsAlts : List Pat :=
  [lyt "basketball", lyt "volleyball", lyt "football", lyt "soccer", lyt "nba",
   lyt "pba", lyt "uaap", lyt "ncaa", lyt "tournament", lyt "match", lyt "game",
   lyt "coach", lyt "player", lyt "club"]

/-- `CRIME` from `store.py`. -/
def crimeAlts : List Pat :=
  [lyt "shabu", lyt "buy-bust", lyt "drug", lyt "narcotics",
   ws2 "illegal" "drugs", lyt "anti-drug", lyt "meth", lyt "pdea"]

/-- `DISASTERS` from `store.py`. -/
def disasterAlts : List Pat :=
  [lyt "earthquake", lyt "typhoon", lyt "hurricane", ws2 "natural" "disaster",
   lyt "magnitude", lyt "aftershock", lyt "tsunami", lyt "landslide",
   lyt "volcano", lyt "eruption", lyt "storm", lyt "cyclone", lyt "tornado",
   ws2 "flash" "flood", ws2 "flooding" "incident"]

/-- `DAMAGE` from `store.py`. -/
def damageAlts : List Pat :=
  [lyt "damage", lyt "damages", lyt "destroyed", lyt "collapsed", lyt "injured",
   lyt "killed", lyt "deaths", lyt "casualties", lyt "evacuated",
   lyt "displaced", lyt "affected", lyt "victims", ws2 "property" "damage"]

/-- `MONEY` from `store.py`.  The source writes the `php` alternative as
`\\bphp\\b` inside a raw string, so the compiled regex matches the literal
seven characters `\bphp\b` (backslash, `b`, `p`, `h`, `p`, backslash, `b`),
not a word-bounded `php`. -/
def moneyAlts : List Pat :=
  [lyt "fund", lyt "budget", lyt "appropriation", lyt "allocation",
   lyt "disbursement", lyt "audit", lyt "coa", lyt "\\bphp\\b",
   lyt "billion", lyt "million", lyt "trillion", lyt "peso", lyt "pesos"]

/-- `PH_GOVERNMENT` from `store.py` (note the bare `ph` alternative and the
literal-space `vice president`). -/
def phGovAlts : List Pat :=
  [lyt "philippine", lyt "ph", lyt "dpwh", lyt "dbm", lyt "coa", lyt "comelec",
   lyt "dilg", lyt "doh", lyt "deped", lyt "dotr", lyt "senate", lyt "house",
   lyt "congress", lyt "solon", lyt "lawmaker", lyt "bill", lyt "appropriation",
   lyt "budget", lyt "malacañang", lyt "palace", lyt "president",
   lyt "vice president", lyt "ombudsman", lyt "philippines", lyt "filipino",
   ws2 "philippine" "government", ws2 "ph" "government"]

/-- `CORRUPTION` from `store.py`. -/
def corruptionAlts : List Pat :=
  [lyt "pork", lyt "kickback", lyt "anomaly", lyt "graft", lyt "plunder",
   lyt "misuse", lyt "overprice", lyt "overpriced", lyt "scam",
   lyt "whistleblower"]

/-- `NEGATIVE_PATTERN.search`: `(?:SPORTS)|(?:CRIME)|(?:DISASTERS)|(?:DAMAGE)`
searched case-insensitively (the classifier feeds it already-lowercased
text, over which the alternation reduces to plain occurrence of one of the
alternatives). -/
def negativeSearch (cs : List Char) : Bool :=
  searchAny (sportsAlts ++ crimeAlts ++ disasterAlts ++ damageAlts) cs

/-- `POSITIVE_PATTERN.search`: the pattern is
`(?=.*MONEY).*(?:PH_GOVERNMENT|CORRUPTION)` compiled with `re.DOTALL`, so
`.` crosses newlines and a search succeeds at position 0 exactly when a
`MONEY` alternative occurs somewhere and a `PH_GOVERNMENT` or `CORRUPTION`
alternative occurs somewhere; at later positions the condition is only
harder, so the search reduces to this conjunction. -/
def positiveSearch (cs : List Char) : Bool :=
  searchAny moneyAlts cs && (searchAny phGovAlts cs || searchAny corruptionAlts cs)

/-- `a.*b` as a token sequence. -/
def seqPat (a b : Pat) : Pat := a ++ [Tok.dotStar] ++ b

/-- `disaster_money_pattern.search`: the pattern is
`(?:DISASTERS).*MONEY|MONEY.*DISASTERS` (no `re.DOTALL`, so the `.*` cannot
cross a newline).  Alternation distributes over concatenation for the
purpose of search, giving this form. -/
def disasterMoneySearch (cs : List Char) : Bool :=
  disasterAlts.any fun d => moneyAlts.any fun m =>
    searchTok (seqPat d m) cs || searchTok (seqPat m d) cs

/-! ### `classify_is_funds` -/

/-- The text the classifier operates on:
`((title or "") + "\n" + (content or "")).strip()`. -/
def fundsText (title content : Option String) : List Char :=
  pyStrip ((title.getD "").data ++ '\n' :: (content.getD "").data)

/-- `classify_is_funds` from `store.py`, with NER augmentation disabled
(`USE_SPACY_FUNDS = false`, the default, so the spaCy third pass is
skipped).  The disaster-money revalidation branch builds a regex from the
name `PUBLIC_SECTOR`, which is defined nowhere in the module; reaching that
branch would raise a Python `NameError`, modelled as `Except.error`. -/
def classify_is_funds (title content : Option String) : Except String Bool :=
  let text := fundsText title content
  if (pyStrip text).isEmpty then .ok false
  else
    let textLower := lowerStr text
    if negativeSearch textLower then .ok false
    else
      let regexDecision := positiveSearch textLower
      if regexDecision && disasterMoneySearch textLower then
        .error "NameError: name PUBLIC_SECTOR is not defined"
      else .ok regexDecision

/-! ### Matcher lemmas -/

theorem matchPreF_nil (f : Nat) (cs : List Char) :
    matchPreF (f + 1) [] cs = true := rfl

theorem matchPreF_lit (f : Nat) (s : List Char) (r : Pat) (cs : List Char) :
    matchPreF (f + 1) (.lit s :: r) cs =
      (s.isPrefixOf cs && matchPreF f r (cs.drop s.length)) := rfl

theorem matchPreF_ws_nil (f : Nat) (r : Pat) :
    matchPreF (f + 1) (.wsPlus :: r) [] = false := rfl

theorem matchPreF_ws_cons (f : Nat) (r : Pat) (c : Char) (cs : List Char) :
    matchPreF (f + 1) (.wsPlus :: r) (c :: cs) =
      (isPyWS c && (matchPreF f r cs || matchPreF f (.wsPlus :: r) cs)) := rfl

theorem matchPreF_dot_nil (f : Nat) (r : Pat) :
    matchPreF (f + 1) (.dotStar :: r) [] = (matchPreF f r [] || false) := rfl

theorem matchPreF_dot_cons (f : Nat) (r : Pat) (c : Char) (cs : List Char) :
    matchPreF (f + 1) (.dotStar :: r) (c :: cs) =
      (matchPreF f r (c :: cs) || (!(c == '\n') && matchPreF f (.dotStar :: r) cs)) := rfl

theorem matchPreF_mono {f : Nat} {p : Pat} {cs : List Char}
    (h : matchPreF f p cs = true) : matchPreF (f + 1) p cs = true := by
  induction f generalizing p cs with
  | zero => simp [matchPreF] at h
  | succ f ih =>
    match p, cs with
    | [], cs => rfl
    | .lit s :: r, cs =>
      rw [matchPreF_lit] at h ⊢
      rw [Bool.and_eq_true] at h ⊢
      exact ⟨h.1, ih h.2⟩
    | .wsPlus :: r, [] =>
      rw [matchPreF_ws_nil] at h
      exact absurd h (by simp)
    | .wsPlus :: r, c :: cs =>
      rw [matchPreF_ws_cons] at h ⊢
      rw [Bool.and_eq_true, Bool.or_eq_true] at h ⊢
      exact ⟨h.1, h.2.elim (fun h2 => Or.inl (ih h2)) (fun h2 => Or.inr (ih h2))⟩
    | .dotStar :: r, [] =>
      rw [matchPreF_dot_nil] at h ⊢
      rw [Bool.or_eq_true] at h ⊢
      exact h.elim (fun h2 => Or.inl (ih h2)) (fun h2 => absurd h2 (by simp))
    | .dotStar :: r, c :: cs =>
      rw [matchPreF_dot_cons] at h ⊢
      rw [Bool.or_eq_true] at h ⊢
      rcases h with h | h
      · exact Or.inl (ih h)
      · rw [Bool.and_eq_true] at h
        exact Or.inr (by rw [Bool.and_eq_true]; exact ⟨h.1, ih h.2⟩)

theorem matchPreF_mono_le {f f' : Nat} {p : Pat} {cs : List Char}
    (hle : f ≤ f') (h : matchPreF f p cs = true) : matchPreF f' p cs = true := by
  induction hle with
  | refl => exact h
  | step _ ih => exact matchPreF_mono ih

/-- Above the size bound, extra fuel does not change the matcher. -/
theorem matchPreF_succ_stable (f : Nat) (p : Pat) (cs : List Char)
    (h : p.length + cs.length < f) :
    matchPreF (f + 1) p cs = matchPreF f p cs := by
  induction f generalizing p cs with
  | zero => omega
  | succ f ih =>
    match p, cs with
    | [], cs => rfl
    | .lit s :: r, cs =>
      rw [matchPreF_lit, matchPreF_lit]
      have hd : r.length + (cs.drop s.length).length < f := by
        have := List.length_drop s.length cs
        simp only [List.length_cons] at h
        omega
      rw [ih _ _ hd]
    | .wsPlus :: r, [] => rfl
    | .wsPlus :: r, c :: cs =>
      rw [matchPreF_ws_cons, matchPreF_ws_cons]
      simp only [List.length_cons] at h
      rw [ih r cs (by omega),
        ih (.wsPlus :: r) cs (by simp only [List.length_cons]; omega)]
    | .dotStar :: r, [] =>
      rw [matchPreF_dot_nil, matchPreF_dot_nil]
      simp only [List.length_cons, List.length_nil] at h
      rw [ih r [] (by simp only [List.length_nil]; omega)]
    | .dotStar :: r, c :: cs =>
      rw [matchPreF_dot_cons, matchPreF_dot_cons]
      simp only [List.length_cons] at h
      rw [ih r (c :: cs) (by simp only [List.length_cons]; omega),
        ih (.dotStar :: r) cs (by simp only [List.length_cons]; omega)]

theorem matchPreF_stable {f : Nat} {p : Pat} {cs : List Char}
    (h : p.length + cs.length < f) :
    matchPreF f p cs = matchPre p cs := by
  unfold matchPre
  obtain ⟨k, hk⟩ : ∃ k, f = p.length + cs.length + 1 + k :=
    ⟨f - (p.length + cs.length + 1), by omega⟩
  subst hk
  clear h
  induction k with
  | zero => rfl
  | succ k ih =>
    rw [← ih, ← Nat.add_assoc]
    exact matchPreF_succ_stable _ p cs (by omega)

/-- Truth of the matcher at any fuel gives truth of `matchPre`. -/
theorem matchPre_of_fuel {f : Nat} {p : Pat} {cs : List Char}
    (h : matchPreF f p cs = true) : matchPre p cs = true := by
  rcases le_or_lt f (p.length + cs.length + 1) with hle | hlt
  · exact matchPreF_mono_le hle h
  · rw [← matchPreF_stable (f := f) (by omega)]
    exact h

/-- A match of a concatenation yields a match of its left part. -/
theorem matchPreF_append_left {f : Nat} {p q : Pat} {cs : List Char}
    (h : matchPreF f (p ++ q) cs = true) : matchPreF f p cs = true := by
  induction f generalizing p cs with
  | zero => simp [matchPreF] at h
  | succ f ih =>
    match p with
    | [] => rfl
    | .lit s :: r =>
      rw [List.cons_append, matchPreF_lit] at h
      rw [matchPreF_lit]
      rw [Bool.and_eq_true] at h ⊢
      exact ⟨h.1, ih h.2⟩
    | .wsPlus :: r =>
      match cs with
      | [] =>
        rw [List.cons_append, matchPreF_ws_nil] at h
        exact absurd h (by simp)
      | c :: cs =>
        rw [List.cons_append, matchPreF_ws_cons] at h
        rw [matchPreF_ws_cons]
        rw [Bool.and_eq_true, Bool.or_eq_true] at h ⊢
        refine ⟨h.1, ?_⟩
        rcases h.2 with h2 | h2
        · exact Or.inl (ih h2)
        · exact Or.inr (ih (p := .wsPlus :: r) (by rw [List.cons_append]; exact h2))
    | .dotStar :: r =>
      match cs with
      | [] =>
        rw [List.cons_append, matchPreF_dot_nil] at h
        rw [matchPreF_dot_nil]
        rw [Bool.or_eq_true] at h ⊢
        exact h.elim (fun h2 => Or.inl (ih h2)) (fun h2 => absurd h2 (by simp))
      | c :: cs =>
        rw [List.cons_append, matchPreF_dot_cons] at h
        rw [matchPreF_dot_cons]
        rw [Bool.or_eq_true] at h ⊢
        rcases h with h | h
        · exact Or.inl (ih h)
        · rw [Bool.and_eq_true] at h
          refine Or.inr ?_
          rw [Bool.and_eq_true]
          exact ⟨h.1, ih (p := .dotStar :: r) (by rw [List.cons_append]; exact h.2)⟩

/-- A match of a concatenation yields a match of its right part on some
suffix (expressed with `List.drop`). -/
theorem matchPreF_append_right {f : Nat} {p q : Pat} {cs : List Char}
    (h : matchPreF f (p ++ q) cs = true) :
    ∃ n, matchPreF f q (cs.drop n) = true := by
  induction f generalizing p cs with
  | zero => simp [matchPreF] at h
  | succ f ih =>
    match p with
    | [] => exact ⟨0, h⟩
    | .lit s :: r =>
      rw [List.cons_append, matchPreF_lit, Bool.and_eq_true] at h
      obtain ⟨n, hn⟩ := ih h.2
      rw [List.drop_drop] at hn
      exact ⟨s.length + n, matchPreF_mono hn⟩
    | .wsPlus :: r =>
      match cs with
      | [] =>
        rw [List.cons_append, matchPreF_ws_nil] at h
        exact absurd h (by simp)
      | c :: cs =>
        rw [List.cons_append, matchPreF_ws_cons] at h
        rw [Bool.and_eq_true, Bool.or_eq_true] at h
        rcases h.2 with h2 | h2
        · obtain ⟨n, hn⟩ := ih h2
          exact ⟨n + 1, by
            rw [List.drop_succ_cons]
            exact matchPreF_mono hn⟩
        · obtain ⟨n, hn⟩ := ih (p := .wsPlus :: r) (by rw [List.cons_append]; exact h2)
          exact ⟨n + 1, by
            rw [List.drop_succ_cons]
            exact matchPreF_mono hn⟩
    | .dotStar :: r =>
      match cs with
      | [] =>
        rw [List.cons_append, matchPreF_dot_nil, Bool.or_eq_true] at h
        rcases h with h | h
        · obtain ⟨n, hn⟩ := ih h
          exact ⟨n, matchPreF_mono hn⟩
        · exact absurd h (by simp)
      | c :: cs =>
        rw [List.cons_append, matchPreF_dot_cons, Bool.or_eq_true] at h
        rcases h with h | h
        · obtain ⟨n, hn⟩ := ih h
          exact ⟨n, matchPreF_mono hn⟩
        · rw [Bool.and_eq_true] at h
          obtain ⟨n, hn⟩ := ih (p := .dotStar :: r) (by rw [List.cons_append]; exact h.2)
          exact ⟨n + 1, by
            rw [List.drop_succ_cons]
            exact matchPreF_mono hn⟩

/-- A prefix match on a suffix of the text gives a search hit. -/
theorem searchTok_of_drop {p : Pat} {cs : List Char} {n : Nat}
    (h : matchPre p (cs.drop n) = true) : searchTok p cs = true := by
  induction cs generalizing n with
  | nil => simpa using h
  | cons c cs ih =>
    match n with
    | 0 =>
      rw [List.drop_zero] at h
      simp only [searchTok, Bool.or_eq_true]
      exact Or.inl h
    | n + 1 =>
      rw [List.drop_succ_cons] at h
      simp only [searchTok, Bool.or_eq_true]
      exact Or.inr (ih (n := n) h)

theorem searchTok_append_left {p q : Pat} {cs : List Char}
    (h : searchTok (p ++ q) cs = true) : searchTok p cs = true := by
  induction cs with
  | nil =>
    simp only [searchTok] at h ⊢
    exact matchPre_of_fuel (matchPreF_append_left h)
  | cons c cs ih =>
    simp only [searchTok, Bool.or_eq_true] at h ⊢
    rcases h with h | h
    · exact Or.inl (matchPre_of_fuel (matchPreF_append_left h))
    · exact Or.inr (ih h)

theorem searchTok_append_right {p q : Pat} {cs : List Char}
    (h : searchTok (p ++ q) cs = true) : searchTok q cs = true := by
  induction cs with
  | nil =>
    simp only [searchTok] at h
    obtain ⟨n, hn⟩ := matchPreF_append_right h
    exact searchTok_of_drop (matchPre_of_fuel hn)
  | cons c cs ih =>
    simp only [searchTok, Bool.or_eq_true] at h ⊢
    rcases h with h | h
    · obtain ⟨n, hn⟩ := matchPreF_append_right h
      have := @searchTok_of_drop q (c :: cs) n (matchPre_of_fuel hn)
      simp only [searchTok, Bool.or_eq_true] at this
      exact this
    · exact Or.inr (ih h)

/-- Any hit of `disaster_money_pattern` contains a `DISASTERS` hit, which the
earlier `NEGATIVE_PATTERN` veto already catches. -/
theorem negativeSearch_of_disasterMoney {cs : List Char}
    (h : disasterMoneySearch cs = true) : negativeSearch cs = true := by
  unfold disasterMoneySearch at h
  rw [List.any_eq_true] at h
  obtain ⟨d, hd, h⟩ := h
  rw [List.any_eq_true] at h
  obtain ⟨m, _, h⟩ := h
  rw [Bool.or_eq_true] at h
  have hds : searchTok d cs = true := by
    rcases h with h | h
    · simp only [seqPat] at h
      exact searchTok_append_left (searchTok_append_left h)
    · simp only [seqPat] at h
      exact searchTok_append_right h
  unfold negativeSearch searchAny
  rw [List.any_eq_true]
  exact ⟨d, by simp [hd], hds⟩

/-- Helper (shared): `classify_is_funds` never reaches its error branch. -/
theorem classify_ok (title content : Option String) :
    ∃ b, classify_is_funds title content = .ok b := by
  unfold classify_is_funds
  by_cases h0 : (pyStrip (fundsText title content)).isEmpty
  · exact ⟨false, by simp [h0]⟩
  · simp only [h0, if_neg, Bool.false_eq_true, not_false_eq_true, if_false]
    by_cases hneg : negativeSearch (lowerStr (fundsText title content))
    · exact ⟨false, by simp [hneg]⟩
    · have hdm : disasterMoneySearch (lowerStr (fundsText title content)) = false := by
        by_contra hdm
        have := @negativeSearch_of_disasterMoney (lowerStr (fundsText title content))
          (by revert hdm; cases disasterMoneySearch (lowerStr (fundsText title content)) <;> simp)
        exact hneg this
      refine ⟨positiveSearch (lowerStr (fundsText title content)), ?_⟩
      simp [hneg, hdm]

/-- The Boolean the store records.  `classify_is_funds` never reaches its
error branch (`classify_ok`), so the default value of the error case is
immaterial. -/
def classifyB (title content : Option String) : Bool :=
  match classify_is_funds title content with
  | .ok b => b
  | .error _ => false

/-! ### Claims about the funds classifier -/

/-- Claim C3: veto precedence in the funds classifier — whenever the
lowercased combined text of (title, content) matches the `NEGATIVE_PATTERN`
veto (sports, crime/drug-bust, natural-disaster, or damage terms),
`classify_is_funds` returns `false`, even when the positive
money-plus-government/corruption rule also matches. -/
theorem claim_C3 (title content : Option String)
    (hveto : negativeSearch (lowerStr (fundsText title content)) = true) :
    classify_is_funds title content = .ok false := by
  unfold classify_is_funds
  by_cases h0 : (pyStrip (fundsText title content)).isEmpty
  · simp [h0]
  · simp [h0, hveto]

/-- Witness for C3: the spec's disaster example — the earthquake title with
empty content is vetoed even though it mentions `millions`. -/
theorem claim_C3_witness :
    negativeSearch (lowerStr (fundsText
      (some "Magnitude 6 earthquake damages houses worth millions in Bohol")
      (some ""))) = true ∧
    classify_is_funds
      (some "Magnitude 6 earthquake damages houses worth millions in Bohol")
      (some "") = .ok false :=
  ⟨by decide, claim_C3 _ _ (by decide)⟩

/-- Claim C7: money-cue-only boundary — if the lowercased combined text
matches the `MONEY` alternation but matches neither the `PH_GOVERNMENT` nor
the `CORRUPTION` alternation, `classify_is_funds` returns `false` (the
positive rule needs both sides of its conjunction). -/
theorem claim_C7 (title content : Option String)
    (hmoney : searchAny moneyAlts (lowerStr (fundsText title content)) = true)
    (hgov : searchAny phGovAlts (lowerStr (fundsText title content)) = false)
    (hcorr : searchAny corruptionAlts (lowerStr (fundsText title content)) = false) :
    classify_is_funds title content = .ok false := by
  unfold classify_is_funds
  have hpos : positiveSearch (lowerStr (fundsText title content)) = false := by
    unfold positiveSearch
    rw [hgov, hcorr]
    simp
  by_cases h0 : (pyStrip (fundsText title content)).isEmpty
  · simp [h0]
  · by_cases hneg : negativeSearch (lowerStr (fundsText title content))
    · simp [h0, hneg]
    · simp [h0, hneg, hpos]

/-- Witness for C7: a money cue (`millions`) with no public-sector and no
corruption cue yields `is_funds = false`. -/
theorem claim_C7_witness :
    searchAny moneyAlts (lowerStr (fundsText
      (some "Company raises millions for charity") none)) = true ∧
    searchAny phGovAlts (lowerStr (fundsText
      (some "Company raises millions for charity") none)) = false ∧
    searchAny corruptionAlts (lowerStr (fundsText
      (some "Company raises millions for charity") none)) = false ∧
    classify_is_funds (some "Company raises millions for charity") none = .ok false :=
  ⟨by decide, by decide, by decide, claim_C7 _ _ (by decide) (by decide) (by decide)⟩

/-- Claim C8: totality and determinism of the funds classifier — for every
pair of optional inputs (including `none` and empty strings), with NER
augmentation disabled, `classify_is_funds` returns `.ok` with a Boolean and
never reaches its error branch: the disaster-money revalidation branch,
whose body would evaluate the undefined name `PUBLIC_SECTOR` and raise a
`NameError`, is unreachable because any `disaster_money_pattern` hit
contains a `DISASTERS` hit that the earlier `NEGATIVE_PATTERN` veto has
already rejected (`negativeSearch_of_disasterMoney`).  Determinism holds
because the embedding is a pure function of its arguments. -/
theorem claim_C8 (title content : Option String) :
    ∃ b, classify_is_funds title content = .ok b :=
  classify_ok title content


/-! ### `bias.py`: sentiment labelling and Philippine political bias

The VADER compound score and the wall-clock timings come from outside the
program (NLTK library, system clock); the compound enters the model as an
oracle parameter and the timing fields are omitted.  `keywords_ph.json` is
absent from the tree, so `_load_political_keywords` falls back to its
embedded defaults: empty `keywords`/`weights` configuration, which makes
`analyze_political_bias_philippine` use the embedded `POLITICAL_KEYWORDS`
dictionary and the hard-coded default weights. -/

/-- `analyze_sentiment_vader` from `bias.py`: the `(compound, label)` pair,
with the compound score supplied by the external VADER engine.  The
thresholds are the float literals `0.05` / `-0.05`, modelled exactly in
`ℚ`. -/
def analyze_sentiment_vader (compound : ℚ) : ℚ × String :=
  (compound,
    if compound ≥ 0.05 then "positive"
    else if compound ≤ -0.05 then "negative"
    else "neutral")

/-- Python's substring test `t in s` over character lists. -/
def containsSub (t : List Char) : List Char → Bool
  | [] => t.isPrefixOf []
  | c :: cs => t.isPrefixOf (c :: cs) || containsSub t cs

/-- Word characters for the regex `\b` boundary (`[A-Za-z0-9_]`, the ASCII
fragment of `\w`). -/
def isWordChar (c : Char) : Bool := c.isAlphanum || c == '_'

/-- One attempt of `re.search(rf"\b{term}\b", text)` at the current position:
the term is a prefix here, the previous character (if any) is not a word
character, and neither is the character following the match. -/
def wbAt (t : List Char) (prev : Option Char) (cs : List Char) : Bool :=
  t.isPrefixOf cs &&
    (match prev with | none => true | some p => !isWordChar p) &&
    (match cs.drop t.length with | [] => true | c :: _ => !isWordChar c)

/-- `re.search(rf"\b{term}\b", text)` for a term made of word characters,
scanning all positions while tracking the previous character. -/
def wbSearch (t : List Char) : Option Char → List Char → Bool
  | prev, [] => wbAt t prev []
  | prev, c :: cs => wbAt t prev (c :: cs) || wbSearch t (some c) cs

/-- One term's contribution to the keyword-count loop of
`analyze_political_bias_philippine`: the term is lowered and stripped, empty
terms are skipped, multi-word terms (containing a space) are matched as
substrings (`in`), single words with `\b` word boundaries. -/
def termMatches (t : String) (tl : List Char) : Bool :=
  let term := lowerStr (pyStrip t.data)
  if term.isEmpty then false
  else if term.contains ' ' then containsSub term tl
  else wbSearch term none tl

/-- Per-category count: the loop adds 1 for each matching term, so the
descending-length sort in the source does not affect the count. -/
def countMatches (terms : List String) (tl : List Char) : Nat :=
  (terms.filter fun t => termMatches t tl).length

/-- The embedded `POLITICAL_KEYWORDS` dictionary of `bias.py` (the operative
lexicon, since `keywords_ph.json` is not present). -/
def POLITICAL_KEYWORDS : List (String × List String) :=
  [("pro_gov_current_admin",
    ["marcos", "bbm", "bongbong marcos", "sara duterte", "administration",
     "government success", "progress", "development", "infrastructure"]),
   ("pro_gov_administration",
    ["president", "administration", "cabinet", "executive", "leadership",
     "government", "official", "policy", "program", "initiative"]),
   ("pro_gov_policies",
    ["build build build", "infrastructure", "economic growth", "job creation",
     "poverty reduction", "healthcare reform", "education reform"]),
   ("pro_gov_positive_terms",
    ["successful", "effective", "efficient", "progress", "achievement",
     "improvement", "beneficial", "positive", "good governance"]),
   ("pro_opp_opposition_figures",
    ["leni robredo", "opposition", "liberal party", "critics", "activists",
     "human rights groups", "civil society"]),
   ("pro_opp_criticism",
    ["corruption", "incompetence", "failure", "scandal", "controversy",
     "investigation", "accountability", "transparency"]),
   ("pro_opp_protest",
    ["protest", "rally", "demonstration", "activism", "dissent",
     "opposition", "criticism", "resistance"]),
   ("pro_opp_negative_terms",
    ["failed", "corrupt", "ineffective", "problematic", "controversial",
     "criticized", "questioned", "disputed"]),
   ("neutral_general",
    ["philippines", "filipino", "manila", "cebu", "davao", "news",
     "report", "statement", "announcement", "conference"]),
   ("neutral_process",
    ["congress", "senate", "house", "legislation", "bill", "law",
     "committee", "hearing", "session", "vote"]),
   ("neutral_institutional",
    ["supreme court", "comelec", "doj", "dilg", "dof", "doh",
     "deped", "dti", "da", "denr"])]

/-- `formal_indicators` from `analyze_political_bias_philippine`. -/
def formalIndicators : List String :=
  ["according to", "stated", "announced", "reported", "confirmed"]

/-- `informal_indicators` from `analyze_political_bias_philippine`. -/
def informalIndicators : List String :=
  ["slammed", "blasted", "hit back", "fired back"]

/-- `keyword_matches.get(category, 0)`. -/
def kmLookup (km : List (String × Nat)) (k : String) : Nat :=
  (km.lookup k).getD 0

/-- The `keyword_matches` dictionary of the analyzer: per-category counts
over the lowercased text. -/
def keywordMatchesOf (text : String) : List (String × Nat) :=
  POLITICAL_KEYWORDS.map fun p => (p.1, countMatches p.2 (lowerStr text.data))

/-- `pro_gov_score` with the default weights (configured weights are
empty). -/
def proGovScore (km : List (String × Nat)) : ℚ :=
  (kmLookup km "pro_gov_current_admin" : ℚ) * 0.4 +
  (kmLookup km "pro_gov_administration" : ℚ) * 0.3 +
  (kmLookup km "pro_gov_policies" : ℚ) * 0.2 +
  (kmLookup km "pro_gov_positive_terms" : ℚ) * 0.1

/-- `pro_opp_score` with the default weights. -/
def proOppScore (km : List (String × Nat)) : ℚ :=
  (kmLookup km "pro_opp_opposition_figures" : ℚ) * 0.3 +
  (kmLookup km "pro_opp_criticism" : ℚ) * 0.3 +
  (kmLookup km "pro_opp_protest" : ℚ) * 0.2 +
  (kmLookup km "pro_opp_negative_terms" : ℚ) * 0.2

/-- `neutral_score` with the default weights (computed by the source and
recorded nowhere). -/
def neutralScoreOf (km : List (String × Nat)) : ℚ :=
  (kmLookup km "neutral_general" : ℚ) * 0.4 +
  (kmLookup km "neutral_process" : ℚ) * 0.3 +
  (kmLookup km "neutral_institutional" : ℚ) * 0.3

/-- Total keyword matches across all lexicon categories (the running
`total_matches` of the source's counting loop). -/
def totalKeywordMatches (text : String) : Nat :=
  ((keywordMatchesOf text).map Prod.snd).sum

/-- The outputs of `analyze_political_bias_philippine` that the claims refer
to: the returned `bias_score` and `direction`, the per-category
`keyword_matches` recorded in the metadata, and the component scores of the
`analysis_components` metadata entry. -/
structure PoliticalAnalysis where
  bias_score : ℚ
  direction : String
  keyword_matches : List (String × Nat)
  keyword_score : ℚ
  source_pattern : ℚ
  language_patterns : ℚ
  sentiment_context : ℚ
  pro_gov_score : ℚ
  pro_opp_score : ℚ
  neutral_score : ℚ
deriving DecidableEq

/-- `analyze_political_bias_philippine` from `bias.py`, with the VADER
compound as oracle parameter and default weights (the configured `weights`
dictionary is empty).  The local variable `confidence_score =
min(1.0, bias_score + total_matches / 20.0)` computed at the end of the
Python function is dead: it is neither returned nor stored (see
`specConfidence` and claim C5). -/
def analyze_political_bias_philippine (text : String) (compound : ℚ) :
    PoliticalAnalysis :=
  let tl := lowerStr text.data
  let km := keywordMatchesOf text
  let total : Nat := (km.map Prod.snd).sum
  let pro_gov : ℚ := proGovScore km
  let pro_opp : ℚ := proOppScore km
  let keyword_score : ℚ :=
    if total = 0 then 0 else max pro_gov pro_opp / max (total : ℚ) 1
  let source_pattern : ℚ :=
    if containsSub "government".data tl || containsSub "official".data tl
    then 0.1 else 0
  let sentiment_context : ℚ := if |compound| > 0.3 then |compound| else 0
  let formal := (formalIndicators.filter fun t => containsSub t.data tl).length
  let informal := (informalIndicators.filter fun t => containsSub t.data tl).length
  let language_patterns : ℚ :=
    if formal < informal then 0.2
    else if informal < formal then -0.1
    else 0
  let bias : ℚ :=
    keyword_score * 0.6 + source_pattern * 0.1 +
    |language_patterns| * 0.1 + sentiment_context * 0.2
  let direction : String :=
    if pro_gov > pro_opp ∧ bias > 0.1 then "pro_government"
    else if pro_opp > pro_gov ∧ bias > 0.1 then "pro_opposition"
    else "neutral"
  { bias_score := bias, direction := direction, keyword_matches := km,
    keyword_score := keyword_score, source_pattern := source_pattern,
    language_patterns := language_patterns,
    sentiment_context := sentiment_context, pro_gov_score := proGovScore km,
    pro_opp_score := proOppScore km, neutral_score := neutralScoreOf km }

/-- The fields of the `political_bias` analysis row built by
`build_bias_row_for_philippine_political` that the claims refer to
(`sentiment_score`/`sentiment_label`/`toxicity_score` are constant `None`
and `processing_time_ms` is wall clock; both omitted). -/
structure BiasRow where
  article_id : Nat
  model_version : String
  model_type : String
  political_bias_score : ℚ
  confidence_score : ℚ
  direction : String
  keyword_matches : List (String × Nat)
deriving DecidableEq

/-- `build_bias_row_for_philippine_political` from `bias.py`: note that it
recomputes the recorded confidence as
`min(1.0, bias_score + total_keywords / 10.0)` from the metadata's keyword
counts — dividing by 10, not by 20. -/
def build_bias_row_for_philippine_political
    (article_id : Nat) (text : String) (compound : ℚ) : BiasRow :=
  let a := analyze_political_bias_philippine text compound
  let total_keywords : Nat := (a.keyword_matches.map Prod.snd).sum
  { article_id := article_id,
    model_version := "philippine_bias_v1",
    model_type := "political_bias",
    political_bias_score := a.bias_score,
    confidence_score := min 1 (a.bias_score + (total_keywords : ℚ) / 10),
    direction := a.direction,
    keyword_matches := a.keyword_matches }

/-- Modelled from the spec (§4.10): `confidence = min(1, bias_score +
total_matches/20)`, the formula the spec claims is recorded in the
political-bias row.  Kept separate for comparison with the code's recorded
value. -/
def specConfidence (bias : ℚ) (total : Nat) : ℚ :=
  min 1 (bias + (total : ℚ) / 20)

/-! ### Claims about `bias.py` -/

/-- Claim C4: sentiment labelling rule — for every compound score the label
is `positive` iff the compound is at least `0.05`, `negative` iff it is at
most `-0.05`, and `neutral` exactly on the open band in between; in
particular `0.04` labels `neutral` and `0.06` labels `positive`. -/
theorem claim_C4 (compound : ℚ) :
    ((analyze_sentiment_vader compound).2 = "positive" ↔ (0.05 : ℚ) ≤ compound) ∧
    ((analyze_sentiment_vader compound).2 = "negative" ↔ compound ≤ (-0.05 : ℚ)) ∧
    ((analyze_sentiment_vader compound).2 = "neutral" ↔
      ((-0.05 : ℚ) < compound ∧ compound < (0.05 : ℚ))) ∧
    (analyze_sentiment_vader 0.04).2 = "neutral" ∧
    (analyze_sentiment_vader 0.06).2 = "positive" := by
  have hlabel : (analyze_sentiment_vader compound).2 =
      (if compound ≥ 0.05 then "positive"
       else if compound ≤ -0.05 then "negative" else "neutral") := rfl
  refine ⟨?_, ?_, ?_,
    by norm_num [analyze_sentiment_vader],
    by norm_num [analyze_sentiment_vader]⟩
  · rw [hlabel]
    by_cases h1 : compound ≥ 0.05
    · rw [if_pos h1]
      exact ⟨fun _ => h1, fun _ => rfl⟩
    · rw [if_neg h1]
      constructor
      · intro hc
        by_cases h2 : compound ≤ -0.05
        · rw [if_pos h2] at hc
          exact absurd hc (by decide)
        · rw [if_neg h2] at hc
          exact absurd hc (by decide)
      · intro hc
        exact absurd hc h1
  · rw [hlabel]
    by_cases h1 : compound ≥ 0.05
    · rw [if_pos h1]
      constructor
      · intro hc
        exact absurd hc (by decide)
      · intro hc
        exfalso
        rw [ge_iff_le] at h1
        linarith
    · rw [if_neg h1]
      by_cases h2 : compound ≤ -0.05
      · rw [if_pos h2]
        exact ⟨fun _ => h2, fun _ => rfl⟩
      · rw [if_neg h2]
        constructor
        · intro hc
          exact absurd hc (by decide)
        · intro hc
          exact absurd hc h2
  · rw [hlabel]
    by_cases h1 : compound ≥ 0.05
    · rw [if_pos h1]
      constructor
      · intro hc
        exact absurd hc (by decide)
      · rintro ⟨_, hc2⟩
        exfalso
        rw [ge_iff_le] at h1
        linarith
    · by_cases h2 : compound ≤ -0.05
      · rw [if_neg h1, if_pos h2]
        constructor
        · intro hc
          exact absurd hc (by decide)
        · rintro ⟨hc1, _⟩
          exfalso
          linarith
      · rw [if_neg h1, if_neg h2]
        rw [ge_iff_le, not_le] at h1
        rw [not_le] at h2
        exact ⟨fun _ => ⟨h2, h1⟩, fun _ => rfl⟩

/-- Helper (shared): the recorded confidence of the political-bias row,
as the builder computes it — `min(1, bias_score + total/10)`. -/
theorem row_confidence_eq (article_id : Nat) (text : String) (compound : ℚ) :
    (build_bias_row_for_philippine_political article_id text compound).confidence_score =
      min 1 ((analyze_political_bias_philippine text compound).bias_score +
        (totalKeywordMatches text : ℚ) / 10) := rfl

/-- Helper: the bias score of the one-keyword text `"protest"` with oracle
compound 0 is `(1/5) * 0.6 = 3/25`. -/
theorem protest_bias_score :
    (analyze_political_bias_philippine "protest" 0).bias_score = 3 / 25 := by
  have hpg : proGovScore (keywordMatchesOf "protest") = 0 := by
    unfold proGovScore
    rw [show kmLookup (keywordMatchesOf "protest") "pro_gov_current_admin" = 0 by decide,
      show kmLookup (keywordMatchesOf "protest") "pro_gov_administration" = 0 by decide,
      show kmLookup (keywordMatchesOf "protest") "pro_gov_policies" = 0 by decide,
      show kmLookup (keywordMatchesOf "protest") "pro_gov_positive_terms" = 0 by decide]
    norm_num
  have hpo : proOppScore (keywordMatchesOf "protest") = 1 / 5 := by
    unfold proOppScore
    rw [show kmLookup (keywordMatchesOf "protest") "pro_opp_opposition_figures" = 0 by decide,
      show kmLookup (keywordMatchesOf "protest") "pro_opp_criticism" = 0 by decide,
      show kmLookup (keywordMatchesOf "protest") "pro_opp_protest" = 1 by decide,
      show kmLookup (keywordMatchesOf "protest") "pro_opp_negative_terms" = 0 by decide]
    norm_num
  have htotal : ((keywordMatchesOf "protest").map Prod.snd).sum = 1 := by decide
  have hsub1 : containsSub "government".data (lowerStr "protest".data) = false := by
    decide
  have hsub2 : containsSub "official".data (lowerStr "protest".data) = false := by
    decide
  have hformal : (formalIndicators.filter
      fun t => containsSub t.data (lowerStr "protest".data)).length = 0 := by decide
  have hinformal : (informalIndicators.filter
      fun t => containsSub t.data (lowerStr "protest".data)).length = 0 := by decide
  simp only [analyze_political_bias_philippine, htotal, hpg, hpo, hsub1, hsub2,
    hformal, hinformal]
  norm_num [max_def]

/-- Claim C5 counterexample: for the one-keyword text `"protest"` (with
oracle compound 0) the recorded `confidence_score` is
`min(1, 3/25 + 1/10) = 11/50`, not the spec's
`min(1, bias_score + total_matches/20) = 17/100`. -/
theorem claim_C5_counterexample :
    (build_bias_row_for_philippine_political 1 "protest" 0).confidence_score ≠
      specConfidence
        (analyze_political_bias_philippine "protest" 0).bias_score
        (totalKeywordMatches "protest") := by
  rw [row_confidence_eq, protest_bias_score]
  unfold specConfidence
  rw [show totalKeywordMatches "protest" = 1 by decide]
  norm_num [min_def]

/-- Claim C5 (amended): the recorded `confidence_score` of the
political-bias row equals `min(1, bias_score + total_matches/10)` — the
builder recomputes the confidence from the metadata keyword counts with
divisor 10, discarding the analyzer's internal `/20` value. -/
theorem claim_C5 (article_id : Nat) (text : String) (compound : ℚ) :
    (build_bias_row_for_philippine_political article_id text compound).confidence_score =
      min 1 ((analyze_political_bias_philippine text compound).bias_score +
        (totalKeywordMatches text : ℚ) / 10) :=
  row_confidence_eq article_id text compound


/-! ### `celery_app.py`: the beat schedule

The `beat_schedule` dictionary dispatches one task per source on a plain
`schedule(interval)` — a fixed interval in seconds starting from beat
start-up, with no per-entry offset.  Intervals are written as
`h * 60 * 60` for decimal `h`; they are modelled exactly in `ℚ` (the only
claim-relevant coincidence, `1.25 * 60 * 60` for both `scrape_inquirer` and
`scrape_abs_cbn`, is exact in binary floating point as well, since `1.25`
and `3600` are dyadic). -/

/-- One entry of `celery.conf.beat_schedule`. -/
structure BeatEntry where
  name : String
  task : String
  interval : ℚ
deriving DecidableEq

/-- `beat_schedule` from `celery_app.py` (interval in seconds). -/
def beat_schedule : List BeatEntry :=
  [⟨"scrape_rappler", "app.workers.tasks.scrape_rappler_task", 1.0 * 60 * 60⟩,
   ⟨"scrape_gma", "app.workers.tasks.scrape_gma_task", 1.08 * 60 * 60⟩,
   ⟨"scrape_philstar", "app.workers.tasks.scrape_philstar_task", 1.17 * 60 * 60⟩,
   ⟨"scrape_inquirer", "app.workers.tasks.scrape_inquirer_task", 1.25 * 60 * 60⟩,
   ⟨"scrape_abs_cbn", "app.workers.tasks.scrape_abs_cbn_task", 1.25 * 60 * 60⟩,
   ⟨"scrape_manila_bulletin", "app.workers.tasks.scrape_manila_bulletin_task",
     1.33 * 60 * 60⟩,
   ⟨"scrape_manila_times", "app.workers.tasks.scrape_manila_times_task",
     1.42 * 60 * 60⟩,
   ⟨"scrape_sunstar", "app.workers.tasks.scrape_sunstar_task", 1.50 * 60 * 60⟩]

/-- The interval of a named schedule entry. -/
def intervalOf (n : String) : Option ℚ :=
  (beat_schedule.find? fun e => e.name == n).map (·.interval)

/-- The nominal dispatch instants of a fixed-interval schedule entry:
`k · interval` seconds after beat start, for `k = 1, 2, …`. -/
def nominalInstant (n : String) (k : Nat) : Option ℚ :=
  (intervalOf n).map (· * (k : ℚ))

/-- Claim C9 counterexample: `scrape_inquirer` and `scrape_abs_cbn` are
distinct sources, both on the exact interval `4500 s = 1.25 h` with no
offset, so their nominal dispatch instants coincide at every tick — the
spec's "each with its own offset so that no two sources run simultaneously"
does not hold of the configured schedule. -/
theorem claim_C9_counterexample :
    ("scrape_inquirer" : String) ≠ "scrape_abs_cbn" ∧
    intervalOf "scrape_inquirer" = some 4500 ∧
    intervalOf "scrape_abs_cbn" = some 4500 ∧
    nominalInstant "scrape_inquirer" 1 = nominalInstant "scrape_abs_cbn" 1 := by
  refine ⟨by decide, ?_, ?_, ?_⟩
  · rw [show intervalOf "scrape_inquirer" = some (1.25 * 60 * 60 : ℚ) from rfl]
    norm_num
  · rw [show intervalOf "scrape_abs_cbn" = some (1.25 * 60 * 60 : ℚ) from rfl]
    norm_num
  · rfl

/-- Claim C9 (amended): the schedule dispatches one task per source — eight
distinct entries — each on a fixed interval between 3600 s (1.0 h) and
5400 s (1.5 h); there are no per-source offsets, so simultaneous nominal
dispatch of distinct sources is possible (see the counterexample). -/
theorem claim_C9 (e : BeatEntry) (he : e ∈ beat_schedule) :
    (3600 ≤ e.interval ∧ e.interval ≤ 5400) ∧
    (beat_schedule.map (·.name)).Nodup ∧ beat_schedule.length = 8 := by
  refine ⟨?_, by decide, by decide⟩
  fin_cases he <;> constructor <;> norm_num

/-- Witness for C9 (amended): the `scrape_rappler` entry. -/
theorem claim_C9_witness :
    (⟨"scrape_rappler", "app.workers.tasks.scrape_rappler_task",
        1.0 * 60 * 60⟩ : BeatEntry) ∈ beat_schedule ∧
    ((3600 ≤ (⟨"scrape_rappler", "app.workers.tasks.scrape_rappler_task",
        1.0 * 60 * 60⟩ : BeatEntry).interval ∧
      (⟨"scrape_rappler", "app.workers.tasks.scrape_rappler_task",
        1.0 * 60 * 60⟩ : BeatEntry).interval ≤ 5400) ∧
     (beat_schedule.map (·.name)).Nodup ∧ beat_schedule.length = 8) :=
  ⟨by norm_num [beat_schedule], claim_C9 _ (by norm_num [beat_schedule])⟩


/-! ### CPython `urllib.parse` and `_canonicalize_url`

`_canonicalize_url` in `store.py` is built on CPython's `urlparse` /
`urlunparse`.  The model below follows `urllib/parse.py`: removal of ASCII
tab/CR/LF anywhere in the URL, scheme split at the first `:` when the
prefix is a valid scheme (leading letter, then letters/digits/`+-.`),
netloc split after a leading `//` up to the first `/?#` with the
unbalanced-bracket check (`ValueError`, caught by `_canonicalize_url`),
fragment split at the first `#`, query split at the first `?`, and — for
schemes in `uses_params` — the `;params` split of the last path segment.
`_checknetloc`'s NFKC check only concerns non-ASCII netlocs and is outside
the ASCII model. -/

/-- The characters CPython removes from a URL before parsing
(`_UNSAFE_URL_BYTES_TO_REMOVE`). -/
def isUrlUnsafe (c : Char) : Bool := c == '\t' || c == '\r' || c == '\n'

/-- `scheme_chars` of `urllib.parse`. -/
def schemeChar (c : Char) : Bool :=
  c.isAlpha || c.isDigit || c == '+' || c == '-' || c == '.'

/-- The scheme test of `urlsplit`: nonempty, leading ASCII letter, all
characters in `scheme_chars`. -/
def validScheme : List Char → Bool
  | [] => false
  | c :: rest => c.isAlpha && (c :: rest).all schemeChar

/-- The 6-tuple returned by `urlparse`. -/
structure UrlComponents where
  scheme : List Char
  netloc : List Char
  path : List Char
  params : List Char
  query : List Char
  fragment : List Char
deriving DecidableEq

/-- A character that does not end the netloc (`_splitnetloc` scans up to the
first of `/?#`). -/
def notNetlocDelim (c : Char) : Bool := !(c == '/' || c == '?' || c == '#')

/-- `uses_params` of `urllib.parse`. -/
def usesParams : List String :=
  ["", "ftp", "hdl", "prospero", "http", "imap", "https", "shttp", "rtsp",
   "rtspu", "sip", "sips", "mms", "sftp", "tel"]

/-- `_splitparams`: split `;params` off the last path segment (the caller
guarantees a `;` is present when the path has no `/`). -/
def splitparamsL (p : List Char) : List Char × List Char :=
  if p.contains '/' then
    let seg := (p.reverse.takeWhile (fun c => !(c == '/'))).reverse
    if seg.contains ';' then
      (p.take (p.length - seg.length) ++ seg.takeWhile (fun c => !(c == ';')),
       (seg.dropWhile (fun c => !(c == ';'))).drop 1)
    else (p, [])
  else
    (p.takeWhile (fun c => !(c == ';')),
     (p.dropWhile (fun c => !(c == ';'))).drop 1)

/-- `bracket mismatch` check of `urlsplit`: a netloc with `[` but no `]`
or vice versa raises `ValueError("Invalid IPv6 URL")`. -/
def bracketMismatch (n : List Char) : Bool :=
  (n.contains '[' && !n.contains ']') || (n.contains ']' && !n.contains '[')

/-- The scheme split of `urlsplit`: if the text before the first `:` is a
valid scheme, it is split off and lowercased. -/
def schemeSplit (cs : List Char) : List Char × List Char :=
  let pre := cs.takeWhile fun c => !(c == ':')
  if pre.length < cs.length ∧ validScheme pre = true
  then (lowerStr pre, cs.drop (pre.length + 1))
  else ([], cs)

/-- The netloc split of `urlsplit`: after a leading `//`, up to the first of
`/?#`. -/
def netlocSplit (rest : List Char) : List Char × List Char :=
  if rest.take 2 = ['/', '/']
  then ((rest.drop 2).takeWhile notNetlocDelim,
        (rest.drop 2).dropWhile notNetlocDelim)
  else ([], rest)

/-- CPython `urlparse` (with `allow_fragments = True` and no default
scheme); the unbalanced-bracket netloc check raises, modelled as
`Except.error`. -/
def urlparseE (raw : List Char) : Except String UrlComponents :=
  let cs := raw.filter fun c => !isUrlUnsafe c
  let scheme := (schemeSplit cs).1
  let rest := (schemeSplit cs).2
  let netloc := (netlocSplit rest).1
  let rest2 := (netlocSplit rest).2
  if bracketMismatch netloc = true then
    .error "Invalid IPv6 URL"
  else
    let url3 := rest2.takeWhile fun c => !(c == '#')
    let fragment := (rest2.dropWhile fun c => !(c == '#')).drop 1
    let path0 := url3.takeWhile fun c => !(c == '?')
    let query := (url3.dropWhile fun c => !(c == '?')).drop 1
    if usesParams.contains (String.mk scheme) && path0.contains ';' then
      .ok ⟨scheme, netloc, (splitparamsL path0).1, (splitparamsL path0).2,
        query, fragment⟩
    else
      .ok ⟨scheme, netloc, path0, [], query, fragment⟩

/-- CPython `urlunsplit`. -/
def urlunsplitL (scheme netloc url query fragment : List Char) : List Char :=
  let url1 :=
    if netloc ≠ [] ∨ url.take 2 = ['/', '/'] then
      '/' :: '/' :: (netloc ++
        (if url ≠ [] ∧ url.take 1 ≠ ['/'] then '/' :: url else url))
    else url
  let url2 := if scheme ≠ [] then scheme ++ ':' :: url1 else url1
  let url3 := if query ≠ [] then url2 ++ '?' :: query else url2
  if fragment ≠ [] then url3 ++ '#' :: fragment else url3

/-- CPython `urlunparse`: reattach `;params` to the path, then
`urlunsplit`. -/
def urlunparseL (c : UrlComponents) : List Char :=
  urlunsplitL c.scheme c.netloc
    (if c.params ≠ [] then c.path ++ ';' :: c.params else c.path)
    c.query c.fragment

/-- Python `path.rstrip("/")`: remove every trailing slash. -/
def rstripSlashes (p : List Char) : List Char :=
  (p.reverse.dropWhile fun c => c == '/').reverse

/-- The path transformation of `_canonicalize_url`: `path = p.path or "/"`,
then `path.rstrip("/")` when the path is slash-terminated and not the bare
root. -/
def canonPath (q : List Char) : List Char :=
  let path1 := if q = [] then ['/'] else q
  if path1 ≠ ['/'] ∧ path1.getLast? = some '/' then rstripSlashes path1
  else path1

/-- `_canonicalize_url` from `store.py`: parse, lowercase the host, drop
query and fragment (and, through `urlparse`, any `;params` of the last path
segment), apply `canonPath`, reassemble; an empty input or a parse error
returns the input unchanged. -/
def _canonicalize_url (raw : String) : String :=
  if raw = "" then raw
  else
    match urlparseE raw.data with
    | .error _ => raw
    | .ok p =>
      String.mk (urlunparseL ⟨p.scheme, lowerStr p.netloc, canonPath p.path,
        [], [], []⟩)


/-! ### Character-class and list lemmas for the URL proofs -/

theorem char_isAlpha_iff (c : Char) :
    c.isAlpha = true ↔
      (65 ≤ c.toNat ∧ c.toNat ≤ 90) ∨ (97 ≤ c.toNat ∧ c.toNat ≤ 122) := by
  simp only [Char.isAlpha, Char.isUpper, Char.isLower, Bool.or_eq_true,
    Bool.and_eq_true, decide_eq_true_eq, UInt32.le_def, BitVec.le_def]
  exact Iff.rfl

theorem char_isDigit_iff (c : Char) :
    c.isDigit = true ↔ (48 ≤ c.toNat ∧ c.toNat ≤ 57) := by
  simp only [Char.isDigit, Bool.and_eq_true, decide_eq_true_eq,
    UInt32.le_def, BitVec.le_def]
  exact Iff.rfl

theorem schemeChar_iff (c : Char) :
    schemeChar c = true ↔
      (65 ≤ c.toNat ∧ c.toNat ≤ 90) ∨ (97 ≤ c.toNat ∧ c.toNat ≤ 122) ∨
      (48 ≤ c.toNat ∧ c.toNat ≤ 57) ∨
      c.toNat = 43 ∨ c.toNat = 45 ∨ c.toNat = 46 := by
  simp only [schemeChar, Bool.or_eq_true, beq_iff_eq, char_isAlpha_iff,
    char_isDigit_iff, char_eq_iff_toNat]
  have h43 : ('+' : Char).toNat = 43 := rfl
  have h45 : ('-' : Char).toNat = 45 := rfl
  have h46 : ('.' : Char).toNat = 46 := rfl
  rw [h43, h45, h46]
  omega

theorem isUrlUnsafe_iff (c : Char) :
    isUrlUnsafe c = true ↔ c.toNat = 9 ∨ c.toNat = 13 ∨ c.toNat = 10 := by
  simp only [isUrlUnsafe, Bool.or_eq_true, beq_iff_eq, char_eq_iff_toNat]
  have h9 : ('\t' : Char).toNat = 9 := rfl
  have h13 : ('\r' : Char).toNat = 13 := rfl
  have h10 : ('\n' : Char).toNat = 10 := rfl
  rw [h9, h13, h10]
  omega

theorem notNetlocDelim_iff (c : Char) :
    notNetlocDelim c = true ↔
      ¬(c.toNat = 47 ∨ c.toNat = 63 ∨ c.toNat = 35) := by
  simp only [notNetlocDelim, Bool.not_eq_true', Bool.or_eq_false_iff,
    beq_eq_false_iff_ne, ne_eq, char_eq_iff_toNat]
  have h47 : ('/' : Char).toNat = 47 := rfl
  have h63 : ('?' : Char).toNat = 63 := rfl
  have h35 : ('#' : Char).toNat = 35 := rfl
  rw [h47, h63, h35]
  omega

theorem lowerChar_isAlpha (c : Char) :
    (lowerChar c).isAlpha = c.isAlpha := by
  rw [Bool.eq_iff_iff, char_isAlpha_iff, char_isAlpha_iff, lowerChar_toNat]
  by_cases h : c.toNat ≥ 65 ∧ c.toNat ≤ 90
  · rw [if_pos h]
    omega
  · rw [if_neg h]

theorem lowerChar_schemeChar (c : Char) :
    schemeChar (lowerChar c) = schemeChar c := by
  rw [Bool.eq_iff_iff, schemeChar_iff, schemeChar_iff, lowerChar_toNat]
  by_cases h : c.toNat ≥ 65 ∧ c.toNat ≤ 90
  · rw [if_pos h]
    omega
  · rw [if_neg h]

theorem lowerChar_isUrlUnsafe (c : Char) :
    isUrlUnsafe (lowerChar c) = isUrlUnsafe c := by
  rw [Bool.eq_iff_iff, isUrlUnsafe_iff, isUrlUnsafe_iff, lowerChar_toNat]
  by_cases h : c.toNat ≥ 65 ∧ c.toNat ≤ 90
  · rw [if_pos h]
    omega
  · rw [if_neg h]

theorem lowerChar_notNetlocDelim (c : Char) :
    notNetlocDelim (lowerChar c) = notNetlocDelim c := by
  rw [Bool.eq_iff_iff, notNetlocDelim_iff, notNetlocDelim_iff, lowerChar_toNat]
  by_cases h : c.toNat ≥ 65 ∧ c.toNat ≤ 90
  · rw [if_pos h]
    omega
  · rw [if_neg h]

theorem lowerChar_bracketL (c : Char) :
    (lowerChar c == '[') = (c == '[') := by
  rw [Bool.eq_iff_iff, beq_iff_eq, beq_iff_eq]
  exact lowerChar_eq_iff (by decide)

theorem lowerChar_bracketR (c : Char) :
    (lowerChar c == ']') = (c == ']') := by
  rw [Bool.eq_iff_iff, beq_iff_eq, beq_iff_eq]
  exact lowerChar_eq_iff (by decide)

theorem lowerChar_colon {c : Char} : lowerChar c = ':' ↔ c = ':' :=
  lowerChar_eq_iff (by decide)

theorem validScheme_lowerStr (l : List Char) :
    validScheme (lowerStr l) = validScheme l := by
  match l with
  | [] => rfl
  | c :: t =>
    show ((lowerChar c).isAlpha && (lowerStr (c :: t)).all schemeChar) =
      (c.isAlpha && (c :: t).all schemeChar)
    rw [lowerChar_isAlpha]
    congr 1
    unfold lowerStr
    rw [List.all_map]
    congr 1
    funext x
    exact lowerChar_schemeChar x

/-! #### takeWhile / dropWhile helpers -/

theorem takeWhile_all {p : Char → Bool} {l : List Char}
    (h : ∀ x ∈ l, p x = true) : l.takeWhile p = l := by
  induction l with
  | nil => rfl
  | cons c t ih =>
    rw [List.takeWhile_cons, h c (by simp), if_pos rfl,
      ih fun x hx => h x (by simp [hx])]

theorem dropWhile_all {p : Char → Bool} {l : List Char}
    (h : ∀ x ∈ l, p x = true) : l.dropWhile p = [] := by
  induction l with
  | nil => rfl
  | cons c t ih =>
    rw [List.dropWhile_cons, h c (by simp), if_pos rfl]
    exact ih fun x hx => h x (by simp [hx])

theorem takeWhile_middle {p : Char → Bool} {xs ys : List Char} {c : Char}
    (hxs : ∀ x ∈ xs, p x = true) (hc : p c = false) :
    (xs ++ c :: ys).takeWhile p = xs := by
  induction xs with
  | nil => simp [List.takeWhile_cons, hc]
  | cons a t ih =>
    rw [List.cons_append, List.takeWhile_cons, hxs a (by simp), if_pos rfl,
      ih fun x hx => hxs x (by simp [hx])]

theorem dropWhile_middle {p : Char → Bool} {xs ys : List Char} {c : Char}
    (hxs : ∀ x ∈ xs, p x = true) (hc : p c = false) :
    (xs ++ c :: ys).dropWhile p = c :: ys := by
  induction xs with
  | nil => simp [List.dropWhile_cons, hc]
  | cons a t ih =>
    rw [List.cons_append, List.dropWhile_cons, hxs a (by simp), if_pos rfl]
    exact ih fun x hx => hxs x (by simp [hx])

theorem drop_len_succ {xs ys : List Char} {c : Char} :
    (xs ++ c :: ys).drop (xs.length + 1) = ys := by
  induction xs with
  | nil => rfl
  | cons a t ih => simpa using ih

theorem mem_of_takeWhile {p : Char → Bool} {l : List Char} {x : Char}
    (h : x ∈ l.takeWhile p) : x ∈ l :=
  (List.takeWhile_prefix p).subset h

theorem pred_of_takeWhile {p : Char → Bool} {l : List Char} {x : Char}
    (h : x ∈ l.takeWhile p) : p x = true := by
  induction l with
  | nil => simp [List.takeWhile] at h
  | cons c t ih =>
    rw [List.takeWhile_cons] at h
    by_cases hc : p c
    · rw [hc] at h
      simp only [if_true, List.mem_cons] at h
      rcases h with rfl | h
      · exact hc
      · exact ih h
    · simp [hc] at h

theorem mem_of_dropWhile {p : Char → Bool} {l : List Char} {x : Char}
    (h : x ∈ l.dropWhile p) : x ∈ l :=
  (List.dropWhile_suffix p).subset h

theorem dropWhile_head_false {p : Char → Bool} {l : List Char} {c : Char}
    {t : List Char} (h : l.dropWhile p = c :: t) : p c = false := by
  induction l with
  | nil => simp [List.dropWhile] at h
  | cons a s ih =>
    rw [List.dropWhile_cons] at h
    by_cases ha : p a
    · rw [ha] at h
      exact ih (by simpa using h)
    · simp only [ha] at h
      simp only [Bool.false_eq_true, if_false] at h
      cases h
      simpa using ha

theorem dropWhile_eq_nil_iff_all {p : Char → Bool} {l : List Char} :
    l.dropWhile p = [] ↔ ∀ x ∈ l, p x = true := by
  constructor
  · intro h x hx
    induction l with
    | nil => simp at hx
    | cons a t ih =>
      rw [List.dropWhile_cons] at h
      by_cases ha : p a
      · rw [ha] at h
        simp only [if_true] at h
        rcases List.mem_cons.mp hx with rfl | hx'
        · exact ha
        · exact ih h hx'
      · simp [ha] at h
  · exact dropWhile_all

/-! #### `rstripSlashes` facts -/

theorem rstripSlashes_subset {l : List Char} {x : Char}
    (h : x ∈ rstripSlashes l) : x ∈ l := by
  unfold rstripSlashes at h
  rw [List.mem_reverse] at h
  exact List.mem_reverse.mp (mem_of_dropWhile h)

theorem rstripSlashes_prefix (l : List Char) :
    ∃ t, l = rstripSlashes l ++ t := by
  refine ⟨(l.reverse.takeWhile fun c => c == '/').reverse, ?_⟩
  unfold rstripSlashes
  rw [← List.reverse_append, List.takeWhile_append_dropWhile, List.reverse_reverse]

theorem rstripSlashes_ne_nil {l : List Char} {x : Char}
    (hx : x ∈ l) (hxs : x ≠ '/') : rstripSlashes l ≠ [] := by
  unfold rstripSlashes
  intro h
  rw [List.reverse_eq_nil_iff, dropWhile_eq_nil_iff_all] at h
  exact hxs (by simpa using h x (List.mem_reverse.mpr hx))

theorem rstripSlashes_getLast {l : List Char} (h : rstripSlashes l ≠ []) :
    (rstripSlashes l).getLast? ≠ some '/' := by
  intro hlast
  unfold rstripSlashes at h hlast
  rcases hdw : l.reverse.dropWhile (fun c => c == '/') with _ | ⟨c, t⟩
  · rw [hdw] at h
    exact h rfl
  · rw [hdw] at hlast
    rw [List.getLast?_reverse, List.head?_cons] at hlast
    have hc := dropWhile_head_false (p := fun c => c == '/') hdw
    rw [Option.some.injEq] at hlast
    rw [hlast] at hc
    simp at hc

theorem rstripSlashes_head {l : List Char} (h : rstripSlashes l ≠ []) :
    (rstripSlashes l).head? = l.head? := by
  obtain ⟨t, ht⟩ := rstripSlashes_prefix l
  conv_rhs => rw [ht]
  match hr : rstripSlashes l with
  | [] => exact absurd hr h
  | c :: s =>
    rw [List.cons_append]
    rfl


/-! #### `splitparamsL`, `schemeSplit`, `netlocSplit` facts -/

theorem contains_true_iff {l : List Char} {c : Char} :
    l.contains c = true ↔ c ∈ l := List.elem_iff

theorem contains_false_iff {l : List Char} {c : Char} :
    l.contains c = false ↔ c ∉ l := by
  rw [← Bool.not_eq_true, not_iff_not]
  exact contains_true_iff

theorem splitparamsL_subset {q : List Char} {x : Char}
    (h : x ∈ (splitparamsL q).1) : x ∈ q := by
  unfold splitparamsL at h
  by_cases h1 : q.contains '/' = true
  · rw [if_pos h1] at h
    by_cases h2 : ((q.reverse.takeWhile fun c => !(c == '/')).reverse.contains ';') = true
    · rw [if_pos h2] at h
      rcases List.mem_append.mp h with h | h
      · exact (List.take_prefix _ _).subset h
      · have hx := mem_of_takeWhile h
        rw [List.mem_reverse] at hx
        exact List.mem_reverse.mp (mem_of_takeWhile hx)
    · rw [if_neg h2] at h
      exact h
  · rw [if_neg h1] at h
    exact mem_of_takeWhile h

theorem takeWhile_length_lt {p : Char → Bool} {l : List Char} {x : Char}
    (hx : x ∈ l) (hpx : p x = false) : (l.takeWhile p).length < l.length := by
  rcases Nat.lt_or_ge (l.takeWhile p).length l.length with h | h
  · exact h
  · exfalso
    have hpre := List.takeWhile_prefix (l := l) p
    have hlen : (l.takeWhile p).length = l.length :=
      Nat.le_antisymm hpre.length_le h
    have heq : l.takeWhile p = l := hpre.eq_of_length hlen
    rw [← heq] at hx
    rw [pred_of_takeWhile hx] at hpx
    exact Bool.true_eq_false.mp hpx

theorem splitparamsL_take_one {q : List Char} (hq : '/' ∈ q) :
    ((splitparamsL q).1).take 1 = q.take 1 := by
  unfold splitparamsL
  rw [if_pos (contains_true_iff.mpr hq)]
  by_cases h2 : ((q.reverse.takeWhile fun c => !(c == '/')).reverse.contains ';') = true
  · rw [if_pos h2]
    have hseglt : (q.reverse.takeWhile fun c => !(c == '/')).length < q.length := by
      have := takeWhile_length_lt (p := fun c => !(c == '/'))
        (List.mem_reverse.mpr hq) (by simp)
      simpa using this
    have hk : 1 ≤ q.length - (q.reverse.takeWhile fun c => !(c == '/')).reverse.length := by
      simp only [List.length_reverse]
      omega
    rw [List.take_append_of_le_length (by
      simp only [List.length_take, List.length_reverse]
      omega)]
    rw [List.take_take]
    congr 1
    simp only [List.length_reverse] at hk ⊢
    omega
  · rw [if_neg h2]

theorem schemeSplit_spec (cs : List Char) :
    ((schemeSplit cs).1 = [] ∧ (schemeSplit cs).2 = cs) ∨
    (validScheme (schemeSplit cs).1 = true ∧
     lowerStr (schemeSplit cs).1 = (schemeSplit cs).1 ∧
     ':' ∉ (schemeSplit cs).1 ∧
     (∀ x ∈ (schemeSplit cs).1, ∃ y ∈ cs, x = lowerChar y) ∧
     ∀ x ∈ (schemeSplit cs).2, x ∈ cs) := by
  unfold schemeSplit
  by_cases h : (cs.takeWhile fun c => !(c == ':')).length < cs.length ∧
      validScheme (cs.takeWhile fun c => !(c == ':')) = true
  · rw [if_pos h]
    right
    refine ⟨?_, ?_, ?_, ?_, ?_⟩
    · rw [validScheme_lowerStr]
      exact h.2
    · exact lowerStr_idem _
    · intro hmem
      obtain ⟨y, hy, hxy⟩ := List.mem_map.mp hmem
      have hy' : y = ':' := lowerChar_colon.mp hxy
      have hpy := pred_of_takeWhile hy
      rw [hy'] at hpy
      simp at hpy
    · intro x hx
      obtain ⟨y, hy, hxy⟩ := List.mem_map.mp hx
      exact ⟨y, mem_of_takeWhile hy, hxy.symm⟩
    · intro x hx
      exact List.drop_subset _ _ hx
  · rw [if_neg h]
    exact Or.inl ⟨rfl, rfl⟩

theorem netlocSplit_spec (rest : List Char) :
    ((netlocSplit rest).1 = [] ∧ (netlocSplit rest).2 = rest) ∨
    ((∀ x ∈ (netlocSplit rest).1, notNetlocDelim x = true ∧ x ∈ rest) ∧
     (∀ x ∈ (netlocSplit rest).2, x ∈ rest) ∧
     ((netlocSplit rest).2 = [] ∨
      ∃ c t, (netlocSplit rest).2 = c :: t ∧ notNetlocDelim c = false)) := by
  unfold netlocSplit
  by_cases h : rest.take 2 = ['/', '/']
  · rw [if_pos h]
    right
    refine ⟨?_, ?_, ?_⟩
    · intro x hx
      exact ⟨pred_of_takeWhile hx,
        List.drop_subset _ _ (mem_of_takeWhile hx)⟩
    · intro x hx
      exact List.drop_subset _ _ (mem_of_dropWhile hx)
    · rcases hdw : (rest.drop 2).dropWhile notNetlocDelim with _ | ⟨c, t⟩
      · exact Or.inl rfl
      · exact Or.inr ⟨c, t, rfl, dropWhile_head_false (p := notNetlocDelim) hdw⟩
  · rw [if_neg h]
    exact Or.inl ⟨rfl, rfl⟩

/-- Inversion facts for a successful `urlparse`. -/
theorem urlparse_inv {raw : List Char} {p : UrlComponents}
    (hp : urlparseE raw = .ok p) :
    (p.scheme = [] ∨ (validScheme p.scheme = true ∧
      lowerStr p.scheme = p.scheme ∧ ':' ∉ p.scheme)) ∧
    (∀ x ∈ p.scheme, isUrlUnsafe x = false) ∧
    (∀ x ∈ p.netloc, notNetlocDelim x = true ∧ isUrlUnsafe x = false) ∧
    bracketMismatch p.netloc = false ∧
    (∀ x ∈ p.path, isUrlUnsafe x = false ∧ x ≠ '#' ∧ x ≠ '?') ∧
    (p.netloc ≠ [] → (p.path = [] ∨ p.path.take 1 = ['/'])) := by
  simp only [urlparseE] at hp
  set cs := raw.filter (fun c => !isUrlUnsafe c) with hcs
  have hcs_safe : ∀ x ∈ cs, isUrlUnsafe x = false := by
    intro x hx
    rw [hcs] at hx
    have := List.of_mem_filter hx
    simpa using this
  set rest := (schemeSplit cs).2 with hrest
  have hrest_safe : ∀ x ∈ rest, isUrlUnsafe x = false := by
    rcases schemeSplit_spec cs with ⟨_, h2⟩ | ⟨_, _, _, _, h2⟩
    · intro x hx
      rw [hrest, h2] at hx
      exact hcs_safe x hx
    · intro x hx
      exact hcs_safe x (h2 x (hrest ▸ hx))
  set rest2 := (netlocSplit rest).2 with hrest2
  have hrest2_safe : ∀ x ∈ rest2, isUrlUnsafe x = false := by
    rcases netlocSplit_spec rest with ⟨_, h2⟩ | ⟨_, h2, _⟩
    · intro x hx
      rw [hrest2, h2] at hx
      exact hrest_safe x hx
    · intro x hx
      exact hrest_safe x (h2 x (hrest2 ▸ hx))
  have hpath0 :
      ∀ x ∈ (rest2.takeWhile fun c => !(c == '#')).takeWhile (fun c => !(c == '?')),
        isUrlUnsafe x = false ∧ x ≠ '#' ∧ x ≠ '?' := by
    intro x hx
    have hq := pred_of_takeWhile hx
    have hx3 := mem_of_takeWhile hx
    have hh := pred_of_takeWhile hx3
    refine ⟨hrest2_safe x (mem_of_takeWhile hx3), ?_, ?_⟩
    · simpa using hh
    · simpa using hq
  have hpath0_head : (netlocSplit rest).1 ≠ [] →
      ((rest2.takeWhile fun c => !(c == '#')).takeWhile (fun c => !(c == '?')) = [] ∨
       ((rest2.takeWhile fun c => !(c == '#')).takeWhile
          (fun c => !(c == '?'))).take 1 = ['/']) := by
    intro hne
    rcases netlocSplit_spec rest with ⟨h1, _⟩ | ⟨_, _, hhead⟩
    · exact absurd h1 hne
    · rcases hhead with h1 | ⟨c, t, hct, hc⟩
      · rw [← hrest2] at h1
        rw [h1]
        exact Or.inl rfl
      · rw [← hrest2] at hct
        rw [hct]
        have hcd : c.toNat = 47 ∨ c.toNat = 63 ∨ c.toNat = 35 := by
          by_contra hcon
          rw [← notNetlocDelim_iff] at hcon
          rw [hcon] at hc
          exact Bool.true_eq_false.mp hc
        rcases hcd with hc | hc | hc
        · have hcc : c = '/' := char_toNat_inj (by rw [hc]; rfl)
          subst hcc
          right
          rw [List.takeWhile_cons, show (!(('/' : Char) == '#')) = true by decide,
            if_pos rfl, List.takeWhile_cons,
            show (!(('/' : Char) == '?')) = true by decide, if_pos rfl]
          rfl
        · have hcc : c = '?' := char_toNat_inj (by rw [hc]; rfl)
          subst hcc
          left
          rw [List.takeWhile_cons, show (!(('?' : Char) == '#')) = true by decide,
            if_pos rfl, List.takeWhile_cons,
            show (!(('?' : Char) == '?')) = false by decide]
          rfl
        · have hcc : c = '#' := char_toNat_inj (by rw [hc]; rfl)
          subst hcc
          left
          rw [List.takeWhile_cons, show (!(('#' : Char) == '#')) = false by decide]
          rfl
  split at hp
  · exact absurd hp (by simp)
  · rename_i hbrkt
    have hnet : ∀ x ∈ (netlocSplit rest).1, notNetlocDelim x = true ∧
        isUrlUnsafe x = false := by
      rcases netlocSplit_spec rest with ⟨h1, _⟩ | ⟨h1, _, _⟩
      · intro x hx
        rw [h1] at hx
        simp at hx
      · intro x hx
        exact ⟨(h1 x hx).1, hrest_safe x (h1 x hx).2⟩
    have hschemefacts : ((schemeSplit cs).1 = [] ∨
        (validScheme (schemeSplit cs).1 = true ∧
         lowerStr (schemeSplit cs).1 = (schemeSplit cs).1 ∧
         ':' ∉ (schemeSplit cs).1)) ∧
        ∀ x ∈ (schemeSplit cs).1, isUrlUnsafe x = false := by
      rcases schemeSplit_spec cs with ⟨h1, _⟩ | ⟨h1, h2, h3, h4, _⟩
      · exact ⟨Or.inl h1, by rw [h1]; intro x hx; simp at hx⟩
      · refine ⟨Or.inr ⟨h1, h2, h3⟩, ?_⟩
        intro x hx
        obtain ⟨y, hy, hxy⟩ := h4 x hx
        rw [hxy, lowerChar_isUrlUnsafe]
        exact hcs_safe y hy
    split at hp
    · rename_i hparams
      rw [Except.ok.injEq] at hp
      subst hp
      refine ⟨hschemefacts.1, hschemefacts.2, hnet, by simpa using hbrkt, ?_, ?_⟩
      · intro x hx
        exact hpath0 x (splitparamsL_subset hx)
      · intro hne
        rcases hpath0_head hne with h1 | h1
        · rw [h1] at hparams
          simp at hparams
        · right
          have hmem : '/' ∈ (rest2.takeWhile fun c => !(c == '#')).takeWhile
              fun c => !(c == '?') := by
            rcases hq0 : (rest2.takeWhile fun c => !(c == '#')).takeWhile
                fun c => !(c == '?') with _ | ⟨c, t⟩
            · rw [hq0] at h1
              simp at h1
            · rw [hq0] at h1
              rw [show (c :: t).take 1 = [c] from rfl] at h1
              injection h1 with hc _
              rw [hc]
              exact List.mem_cons_self _ _
          rw [splitparamsL_take_one hmem]
          exact h1
    · rename_i hparams
      rw [Except.ok.injEq] at hp
      subst hp
      exact ⟨hschemefacts.1, hschemefacts.2, hnet, by simpa using hbrkt,
        hpath0, hpath0_head⟩

/-! #### Reassembly and reparse of a canonical URL -/

theorem take_one_cons {c : Char} {t q : List Char} (hq : q = c :: t) :
    q.take 1 = [c] := by
  rw [hq]
  rfl

theorem exists_cons_of_take_one {q : List Char} {c : Char}
    (hq : q.take 1 = [c]) : ∃ t, q = c :: t := by
  rcases q with _ | ⟨a, t⟩
  · simp at hq
  · rw [show (a :: t).take 1 = [a] from rfl] at hq
    injection hq with ha _
    exact ⟨t, by rw [ha]⟩

theorem mk_ne_empty {l : List Char} (h : l ≠ []) : String.mk l ≠ "" := by
  intro he
  apply h
  have := congrArg String.data he
  simpa using this

theorem lowerStr_contains {l : List Char} {d : Char}
    (hd : ¬(65 ≤ d.toNat ∧ d.toNat ≤ 90) ∧ ¬(97 ≤ d.toNat ∧ d.toNat ≤ 122)) :
    (lowerStr l).contains d = l.contains d := by
  rw [Bool.eq_iff_iff, contains_true_iff, contains_true_iff]
  constructor
  · intro h
    obtain ⟨y, hy, hxy⟩ := List.mem_map.mp h
    rwa [← (lowerChar_eq_iff hd).mp hxy]
  · intro h
    exact List.mem_map.mpr ⟨d, h, (lowerChar_eq_iff hd).mpr rfl⟩

theorem bracketMismatch_lowerStr (n : List Char) :
    bracketMismatch (lowerStr n) = bracketMismatch n := by
  unfold bracketMismatch
  rw [lowerStr_contains (by decide), lowerStr_contains (by decide)]

/-! #### `canonPath` facts -/

theorem canonPath_cases {q : List Char} {x : Char} (hx : x ∈ canonPath q) :
    x = '/' ∨ x ∈ q := by
  simp only [canonPath] at hx
  by_cases hnil : q = []
  · subst hnil
    simp at hx
    exact Or.inl hx
  · rw [if_neg hnil] at hx
    split at hx
    · exact Or.inr (rstripSlashes_subset hx)
    · exact Or.inr hx

theorem canonPath_head {q : List Char}
    (hh : q = [] ∨ q.take 1 = ['/'])
    (hsl : q = [] ∨ q = ['/'] ∨ ∃ c ∈ q, c ≠ '/') :
    (canonPath q).take 1 = ['/'] := by
  by_cases hnil : q = []
  · subst hnil
    rfl
  · simp only [canonPath]
    rw [if_neg hnil]
    have hph : q.take 1 = ['/'] := by
      rcases hh with h | h
      · exact absurd h hnil
      · exact h
    obtain ⟨pt, hpt⟩ := exists_cons_of_take_one hph
    by_cases hcond : q ≠ ['/'] ∧ q.getLast? = some '/'
    · rw [if_pos hcond]
      have hne2 : rstripSlashes q ≠ [] := by
        rcases hsl with h | h | ⟨c, hc, hcs⟩
        · exact absurd h hnil
        · exact absurd h hcond.1
        · exact rstripSlashes_ne_nil hc hcs
      have hhd := rstripSlashes_head hne2
      rcases hr : rstripSlashes q with _ | ⟨c, t⟩
      · exact absurd hr hne2
      · rw [hr, hpt] at hhd
        simp only [List.head?_cons, Option.some.injEq] at hhd
        rw [hhd]
        rfl
    · rw [if_neg hcond]
      exact hph

theorem canonPath_ne {q : List Char}
    (hh : q = [] ∨ q.take 1 = ['/'])
    (hsl : q = [] ∨ q = ['/'] ∨ ∃ c ∈ q, c ≠ '/') :
    canonPath q ≠ [] := by
  intro h
  have := canonPath_head hh hsl
  rw [h] at this
  simp at this

theorem canonPath_last {q : List Char}
    (hh : q = [] ∨ q.take 1 = ['/'])
    (hsl : q = [] ∨ q = ['/'] ∨ ∃ c ∈ q, c ≠ '/') :
    canonPath q = ['/'] ∨ (canonPath q).getLast? ≠ some '/' := by
  unfold canonPath
  by_cases hnil : q = []
  · rw [if_pos hnil, if_neg (by simp)]
    exact Or.inl rfl
  · rw [if_neg hnil]
    by_cases hcond : q ≠ ['/'] ∧ q.getLast? = some '/'
    · rw [if_pos hcond]
      right
      apply rstripSlashes_getLast
      rcases hsl with h | h | ⟨c, hc, hcs⟩
      · exact absurd h hnil
      · exact absurd h hcond.1
      · exact rstripSlashes_ne_nil hc hcs
    · rw [if_neg hcond]
      rw [not_and_or] at hcond
      rcases hcond with h | h
      · simp only [not_not] at h
        exact Or.inl h
      · exact Or.inr h

/-- A nonempty path whose last character is not `/` (or the bare root) is a
fixpoint of `canonPath`. -/
theorem canonPath_fixpoint {z : List Char} (hne : z ≠ [])
    (hlast : z = ['/'] ∨ z.getLast? ≠ some '/') : canonPath z = z := by
  unfold canonPath
  rw [if_neg hne]
  rcases hlast with h | h
  · rw [if_neg (by rw [h]; simp)]
  · rw [if_neg (by intro hc; exact h hc.2)]

/-- Reassembly: with a nonempty scheme and netloc and a slash-initial path,
`urlunsplit` produces `scheme://netloc + path`. -/
theorem urlunsplit_canon {s n q : List Char} (hs : s ≠ []) (hn : n ≠ [])
    (hq : q.take 1 = ['/']) :
    urlunsplitL s n q [] [] = s ++ ':' :: '/' :: '/' :: (n ++ q) := by
  simp only [urlunsplitL]
  rw [if_neg (fun h : ([] : List Char) ≠ [] => h rfl),
    if_neg (fun h : ([] : List Char) ≠ [] => h rfl),
    if_pos hs,
    if_pos (Or.inl hn : n ≠ [] ∨ q.take 2 = ['/', '/']),
    if_neg (fun h : q ≠ [] ∧ q.take 1 ≠ ['/'] => h.2 hq)]

/-- `urlunparse` with empty params, query and fragment is `urlunsplit`. -/
theorem urlunparse_no_extras (s n q : List Char) :
    urlunparseL ⟨s, n, q, [], [], []⟩ = urlunsplitL s n q [] [] := by
  unfold urlunparseL
  rw [if_neg (fun h : ([] : List Char) ≠ [] => h rfl)]

/-- Reparse: parsing `scheme://netloc + path` built from well-formed
canonical components recovers exactly those components. -/
theorem urlparse_canon {s n q : List Char}
    (hval : validScheme s = true) (hlow : lowerStr s = s) (hcolon : ':' ∉ s)
    (hsafe : ∀ x ∈ s, isUrlUnsafe x = false)
    (hnne : n ≠ [])
    (hnd : ∀ x ∈ n, notNetlocDelim x = true)
    (hnsafe : ∀ x ∈ n, isUrlUnsafe x = false)
    (hbr : bracketMismatch n = false)
    (hqhead : q.take 1 = ['/'])
    (hqsafe : ∀ x ∈ q, isUrlUnsafe x = false)
    (hqh : '#' ∉ q) (hqq : '?' ∉ q) (hqs : ';' ∉ q) :
    urlparseE (s ++ ':' :: '/' :: '/' :: (n ++ q)) = .ok ⟨s, n, q, [], [], []⟩ := by
  obtain ⟨qt, rfl⟩ := exists_cons_of_take_one hqhead
  have hfil : (s ++ ':' :: '/' :: '/' :: (n ++ '/' :: qt)).filter
      (fun c => !isUrlUnsafe c) = s ++ ':' :: '/' :: '/' :: (n ++ '/' :: qt) := by
    rw [List.filter_eq_self]
    intro a ha
    rw [Bool.not_eq_true']
    simp only [List.mem_append, List.mem_cons] at ha
    rcases ha with ha | ha | ha | ha | ha | ha
    · exact hsafe a ha
    · rw [ha]; rfl
    · rw [ha]; rfl
    · rw [ha]; rfl
    · exact hnsafe a ha
    · rcases ha with ha | ha
      · rw [ha]; rfl
      · exact hqsafe a (List.mem_cons_of_mem _ ha)
  have hpre : (s ++ ':' :: '/' :: '/' :: (n ++ '/' :: qt)).takeWhile
      (fun c => !(c == ':')) = s := by
    apply takeWhile_middle
    · intro x hx
      have hxc : x ≠ ':' := fun he => hcolon (he ▸ hx)
      simp [hxc]
    · simp
  have hss : schemeSplit (s ++ ':' :: '/' :: '/' :: (n ++ '/' :: qt)) =
      (s, '/' :: '/' :: (n ++ '/' :: qt)) := by
    unfold schemeSplit
    rw [hpre]
    rw [if_pos ⟨by simp only [List.length_append, List.length_cons]; omega, hval⟩]
    rw [hlow, drop_len_succ]
  have hns : netlocSplit ('/' :: '/' :: (n ++ '/' :: qt)) = (n, '/' :: qt) := by
    unfold netlocSplit
    rw [if_pos (show ('/' :: '/' :: (n ++ '/' :: qt)).take 2 = ['/', '/']
      from rfl)]
    rw [show (('/' :: '/' :: (n ++ '/' :: qt)).drop 2) = n ++ '/' :: qt from rfl]
    rw [takeWhile_middle hnd (by decide), dropWhile_middle hnd (by decide)]
  have hu3 : ('/' :: qt).takeWhile (fun c => !(c == '#')) = '/' :: qt := by
    apply takeWhile_all
    intro x hx
    have hxc : x ≠ '#' := fun he => hqh (he ▸ hx)
    simp [hxc]
  have hfr : ('/' :: qt).dropWhile (fun c => !(c == '#')) = [] := by
    apply dropWhile_all
    intro x hx
    have hxc : x ≠ '#' := fun he => hqh (he ▸ hx)
    simp [hxc]
  have hp0 : ('/' :: qt).takeWhile (fun c => !(c == '?')) = '/' :: qt := by
    apply takeWhile_all
    intro x hx
    have hxc : x ≠ '?' := fun he => hqq (he ▸ hx)
    simp [hxc]
  have hqr : ('/' :: qt).dropWhile (fun c => !(c == '?')) = [] := by
    apply dropWhile_all
    intro x hx
    have hxc : x ≠ '?' := fun he => hqq (he ▸ hx)
    simp [hxc]
  have hsemi : (('/' :: qt).contains ';') = false := contains_false_iff.mpr hqs
  simp only [urlparseE]
  rw [hfil, hss]
  simp only
  rw [hns]
  simp only
  rw [if_neg (by rw [hbr]; exact Bool.false_ne_true)]
  rw [hu3, hfr, hp0, hqr, hsemi]
  rw [if_neg (by simp)]
  rfl

/-- The first canonicalization, expressed through the parse result. -/
theorem canonicalize_of_parse {raw : String} {p : UrlComponents}
    (hraw : raw ≠ "") (hp : urlparseE raw.data = .ok p) :
    _canonicalize_url raw =
      String.mk (urlunparseL ⟨p.scheme, lowerStr p.netloc, canonPath p.path,
        [], [], []⟩) := by
  unfold _canonicalize_url
  rw [if_neg hraw, hp]

/-! ### Claims about `_canonicalize_url` -/

/-- Claim C2 counterexample: canonicalization is not idempotent —
`_canonicalize_url "http://x//"` is `"http://x"` (the all-slash path is
emptied by the trailing-slash strip), but canonicalizing the result yields
`"http://x/"` (the now-empty path is replaced by `/`). -/
theorem claim_C2_counterexample :
    _canonicalize_url (_canonicalize_url "http://x//") ≠
      _canonicalize_url "http://x//" := by
  rw [show _canonicalize_url "http://x//" = "http://x" from rfl]
  rw [show _canonicalize_url "http://x" = "http://x/" from rfl]
  decide

/-- Claim C2 (amended): canonicalization is idempotent on every URL that
parses with a nonempty scheme and a nonempty host and whose parsed path
contains no `;` and does not consist of two or more slashes only.
(Idempotence fails in general: it fails when the trailing-slash strip
empties an all-slash path — see the counterexample — and when the strip
exposes a `;` parameter in the new final path segment, e.g.
`http://x/a/b;p/`.) -/
theorem claim_C2 (raw : String) (p : UrlComponents)
    (hp : urlparseE raw.data = .ok p)
    (hscheme : p.scheme ≠ []) (hnetloc : p.netloc ≠ [])
    (hsemi : ';' ∉ p.path)
    (hslash : p.path = [] ∨ p.path = ['/'] ∨ ∃ c ∈ p.path, c ≠ '/') :
    _canonicalize_url (_canonicalize_url raw) = _canonicalize_url raw := by
  obtain ⟨hs_or, hs_safe, hn_facts, hbr, hpath_facts, hhead⟩ := urlparse_inv hp
  rcases hs_or with hs_nil | ⟨hval, hlow, hcolon⟩
  · exact absurd hs_nil hscheme
  have hraw : raw ≠ "" := by
    rintro rfl
    rw [show urlparseE ("" : String).data = .ok ⟨[], [], [], [], [], []⟩ from rfl,
      Except.ok.injEq] at hp
    exact hscheme (by rw [← hp])
  -- facts about the canonical path
  have hh := hhead hnetloc
  have hcs : p.path = [] ∨ p.path = ['/'] ∨ ∃ c ∈ p.path, c ≠ '/' := hslash
  have hhead2 : (canonPath p.path).take 1 = ['/'] := canonPath_head hh hcs
  have hne2 : canonPath p.path ≠ [] := canonPath_ne hh hcs
  have hlast2 : canonPath p.path = ['/'] ∨
      (canonPath p.path).getLast? ≠ some '/' := canonPath_last hh hcs
  have hsafe2 : ∀ x ∈ canonPath p.path, isUrlUnsafe x = false := by
    intro x hx
    rcases canonPath_cases hx with rfl | hx'
    · rfl
    · exact (hpath_facts x hx').1
  have hhash2 : '#' ∉ canonPath p.path := by
    intro h
    rcases canonPath_cases h with h' | h'
    · exact absurd h' (by decide)
    · exact (hpath_facts _ h').2.1 rfl
  have hq2 : '?' ∉ canonPath p.path := by
    intro h
    rcases canonPath_cases h with h' | h'
    · exact absurd h' (by decide)
    · exact (hpath_facts _ h').2.2 rfl
  have hsemi2 : ';' ∉ canonPath p.path := by
    intro h
    rcases canonPath_cases h with h' | h'
    · exact absurd h' (by decide)
    · exact hsemi h'
  -- facts about the lowercased netloc
  have hn2ne : lowerStr p.netloc ≠ [] := by
    intro h
    exact hnetloc (List.map_eq_nil_iff.mp h)
  have hn2d : ∀ x ∈ lowerStr p.netloc, notNetlocDelim x = true := by
    intro x hx
    obtain ⟨y, hy, rfl⟩ := List.mem_map.mp hx
    rw [lowerChar_notNetlocDelim]
    exact (hn_facts y hy).1
  have hn2safe : ∀ x ∈ lowerStr p.netloc, isUrlUnsafe x = false := by
    intro x hx
    obtain ⟨y, hy, rfl⟩ := List.mem_map.mp hx
    rw [lowerChar_isUrlUnsafe]
    exact (hn_facts y hy).2
  have hn2br : bracketMismatch (lowerStr p.netloc) = false := by
    rw [bracketMismatch_lowerStr]
    exact hbr
  -- the canonical output as an explicit string
  have hc1 : _canonicalize_url raw =
      String.mk (p.scheme ++ ':' :: '/' :: '/' ::
        (lowerStr p.netloc ++ canonPath p.path)) := by
    rw [canonicalize_of_parse hraw hp, urlunparse_no_extras,
      urlunsplit_canon hscheme hn2ne hhead2]
  rw [hc1]
  -- reparse the canonical output
  have hparse2 : urlparseE (p.scheme ++ ':' :: '/' :: '/' ::
      (lowerStr p.netloc ++ canonPath p.path)) =
      .ok ⟨p.scheme, lowerStr p.netloc, canonPath p.path, [], [], []⟩ :=
    urlparse_canon hval hlow hcolon hs_safe hn2ne hn2d hn2safe hn2br hhead2
      hsafe2 hhash2 hq2 hsemi2
  have hbig_ne : p.scheme ++ ':' :: '/' :: '/' ::
      (lowerStr p.netloc ++ canonPath p.path) ≠ [] := by
    simp
  rw [canonicalize_of_parse (mk_ne_empty hbig_ne)
    (by rw [show (String.mk (p.scheme ++ ':' :: '/' :: '/' ::
      (lowerStr p.netloc ++ canonPath p.path))).data =
      p.scheme ++ ':' :: '/' :: '/' ::
      (lowerStr p.netloc ++ canonPath p.path) from rfl]; exact hparse2)]
  rw [urlunparse_no_extras]
  rw [show lowerStr (lowerStr p.netloc) = lowerStr p.netloc from
    lowerStr_idem p.netloc]
  rw [canonPath_fixpoint hne2 hlast2]
  rw [urlunsplit_canon hscheme hn2ne hhead2]

/-- Witness for C2 (amended): a well-formed article URL with an uppercase
host and a trailing slash is canonicalized idempotently. -/
theorem claim_C2_witness :
    urlparseE ("https://Example.com/a/b/" : String).data =
      .ok ⟨"https".data, "Example.com".data, "/a/b/".data, [], [], []⟩ ∧
    ("https".data ≠ ([] : List Char)) ∧
    ("Example.com".data ≠ ([] : List Char)) ∧
    (';' ∉ "/a/b/".data) ∧
    (∃ c ∈ "/a/b/".data, c ≠ '/') ∧
    _canonicalize_url (_canonicalize_url "https://Example.com/a/b/") =
      _canonicalize_url "https://Example.com/a/b/" :=
  ⟨rfl, by decide, by decide, by decide, by decide,
   claim_C2 "https://Example.com/a/b/" ⟨"https".data, "Example.com".data,
     "/a/b/".data, [], [], []⟩ rfl (by decide) (by decide) (by decide)
     (Or.inr (Or.inr (by decide)))⟩

/-! ## The store: `insert_articles` over a spec-modelled datastore
(`store.py`, `normalize.py`, `scrapers/utils.py`) -/

/-- `NormalizedArticle` from `normalize.py`. -/
structure NormalizedArticle where
  source : String
  category : Option String
  raw_category : Option String
  title : String
  url : Option String
  content : Option String
  published_at : Option String

/-- `CANONICAL_SOURCES` from `scrapers/utils.py`. -/
def CANONICAL_SOURCES : List (String × String) :=
  [("gma", "GMA"), ("manila bulletin", "Manila Bulletin"),
   ("sunstar", "Sunstar"), ("inquirer", "Inquirer"), ("rappler", "Rappler"),
   ("philstar", "Philstar"), ("manila times", "Manila Times"),
   ("abs-cbn", "ABS-CBN")]

/-- `CANONICAL_CATEGORIES` from `scrapers/utils.py`. -/
def CANONICAL_CATEGORIES : List (String × String) :=
  [("headlines", "Headlines"), ("news", "News"), ("nation", "Nation"),
   ("business", "Business"), ("sports", "Sports"),
   ("technology", "Technology"), ("tech", "Technology"), ("world", "World"),
   ("entertainment", "Entertainment"), ("lifestyle", "Lifestyle"),
   ("opinion", "Opinion"), ("cebu", "Cebu"), ("davao", "Davao"),
   ("manila", "Manila"), ("bohol", "Bohol"), ("pampanga", "Pampanga"),
   ("baguio", "Baguio"), ("zamboanga", "Zamboanga"), ("iloilo", "Iloilo"),
   ("tacloban", "Tacloban"), ("general-santos", "General Santos")]

/-- Python `dict.get` over an association list. -/
def dictGet (d : List (String × String)) (k : String) : Option String :=
  (d.find? (fun p => p.1 == k)).map (fun p => p.2)

/-- ASCII uppercase mapping of one character (97–122 map to 65–90). -/
def upperChar (c : Char) : Char :=
  if 97 ≤ c.toNat ∧ c.toNat ≤ 122 then Char.ofNat (c.toNat - 32) else c

/-- Python `str.title()` (ASCII fragment): a letter is uppercased when the
previous character is not a letter and lowercased otherwise. -/
def pyTitleGo : Bool → List Char → List Char
  | _, [] => []
  | prevAlpha, c :: t =>
    (if c.isAlpha then (if prevAlpha then lowerChar c else upperChar c)
     else c) :: pyTitleGo c.isAlpha t

/-- Python `str.title()` over a character list. -/
def pyTitle (s : List Char) : List Char := pyTitleGo false s

/-- `normalize_source` from `scrapers/utils.py`:
`CANONICAL_SOURCES.get(raw.strip().lower()) or raw.strip().title()`, with
`None` and `""` falsy. -/
def normalize_source : Option String → Option String
  | none => none
  | some raw =>
    if raw = "" then none
    else
      match dictGet CANONICAL_SOURCES
          (String.mk (lowerStr (pyStrip raw.data))) with
      | some v =>
        if v = "" then some (String.mk (pyTitle (pyStrip raw.data))) else some v
      | none => some (String.mk (pyTitle (pyStrip raw.data)))

/-- `normalize_category` from `scrapers/utils.py` (the lookup key
additionally replaces `_` by `-`). -/
def normalize_category : Option String → Option String
  | none => none
  | some raw =>
    if raw = "" then none
    else
      match dictGet CANONICAL_CATEGORIES (String.mk
          ((lowerStr (pyStrip raw.data)).map
            (fun c => if c == '_' then '-' else c))) with
      | some v =>
        if v = "" then some (String.mk (pyTitle (pyStrip raw.data))) else some v
      | none => some (String.mk (pyTitle (pyStrip raw.data)))

/-- Python truthiness of an optional string: the value when it is present
and non-empty. -/
def truthyStr : Option String → Option String
  | none => none
  | some u => if u = "" then none else some u

/-- The in-place url canonicalization of `insert_articles` (`store.py`
lines 208–210): a truthy `url` is replaced by its canonical form. -/
def canonArticle (a : NormalizedArticle) : NormalizedArticle :=
  match truthyStr a.url with
  | some u => { a with url := some (_canonicalize_url u) }
  | none => a

/-- The url of an article when truthy (`store.py` line 212 and the skip
test of line 229). -/
def truthyUrl (a : NormalizedArticle) : Option String := truthyStr a.url

/-- `to_check` (`store.py` line 212): the canonical urls of the
url-bearing articles of the batch. -/
def toCheckOf (articles : List NormalizedArticle) : List String :=
  (articles.map canonArticle).filterMap truthyUrl

/-- One row of the `articles` table as built by `insert_articles`
(`store.py` lines 237–246), with the columns of spec §6. -/
structure ArticleRow where
  source : String
  category : Option String
  raw_category : Option String
  title : String
  url : String
  content : Option String
  published_at : Option String
  is_funds : Bool
deriving DecidableEq

/-- The row built for a url-bearing non-duplicate article (`store.py`
lines 237–246).  `classify_is_funds` never reaches its error branch
(`classify_ok`), so the recorded flag is `classifyB`. -/
def mkRow (a : NormalizedArticle) (u : String) : ArticleRow :=
  { source := match normalize_source (some a.source) with
      | some v => if v = "" then a.source else v
      | none => a.source
    category := match a.category with
      | some c => if c = "" then none else normalize_category (some c)
      | none => none
    raw_category := a.raw_category
    title := a.title
    url := u
    content := a.content
    published_at := a.published_at
    is_funds := classifyB (some a.title) a.content }

/-- Modelled from the spec: the datastore of §6 — the `articles` table with
`url UNIQUE` — together with the behaviour of one call's queries: an
injectable failure for the duplicate pre-check select and for the insert,
and the `id` values carried by the insert response (§4.6 step 5
contemplates a response that reports rows but lacks ids). -/
structure DBEnv where
  table : List ArticleRow
  selectErr : Option String
  insertErr : Option String
  respIds : List (Option Nat)

/-- Modelled from the spec: the duplicate pre-check query (`store.py`
line 218) returns the stored urls among `toCheck`, unless the select fault
fires. -/
def dbSelectUrls (env : DBEnv) (toCheck : List String) :
    Except String (List String) :=
  match env.selectErr with
  | some e => .error e
  | none => .ok ((env.table.map (fun r => r.url)).filter
      (fun u => decide (u ∈ toCheck)))

/-- Lines 213–223 of `store.py`: the `existing_urls` set — empty when
there is nothing to check, otherwise the queried urls filtered for
truthiness; a select failure aborts the call. -/
def existingOf (env : DBEnv) (toCheck : List String) :
    Except String (List String) :=
  if toCheck = [] then .ok []
  else
    match dbSelectUrls env toCheck with
    | .error e => .error e
    | .ok l => .ok (l.filter (fun u => !(u == "")))

/-- Modelled from the spec: the single multi-row insert (`store.py`
line 254) succeeds iff no insert fault fires and `UNIQUE(url)` (§6) holds
across the new rows and the stored table; the response then carries one
data row per inserted row, each with the id the environment supplies
(`none` models a row the response reports without an id). -/
def dbInsertRows (env : DBEnv) (rows : List ArticleRow) :
    Except String (List ArticleRow × List (Option Nat)) :=
  match env.insertErr with
  | some e => .error e
  | none =>
    if (rows.map (fun r => r.url)).Nodup ∧
        ∀ r ∈ rows, ∀ t ∈ env.table, r.url ≠ t.url then
      .ok (env.table ++ rows,
        (List.range rows.length).map (fun i => env.respIds.getD i none))
    else .error "duplicate key value violates unique constraint"

/-- The row-building loop of `store.py` lines 226–246: the built rows and
the skip count. -/
def buildRows (existing : List String) :
    List NormalizedArticle → List ArticleRow × Nat
  | [] => ([], 0)
  | a :: t =>
    let r := buildRows existing t
    match truthyUrl a with
    | none => (r.1, r.2 + 1)
    | some u =>
      if u ∈ existing then (r.1, r.2 + 1) else (mkRow a u :: r.1, r.2)

/-- The result dictionary of `insert_articles` (`store.py` lines 267–276);
`error := none` models an absent `error` key. -/
structure InsertResult where
  checked : Nat
  skipped : Nat
  inserted : Nat
  inserted_ids : List Nat
  error : Option String

/-- `insert_articles` from `store.py` over the spec-modelled datastore:
canonicalize urls, pre-check duplicates, build rows, insert.  Returns the
result dictionary and the `articles` table after the call. -/
def insert_articles (env : DBEnv) (articles : List NormalizedArticle) :
    InsertResult × List ArticleRow :=
  let arts := articles.map canonArticle
  let to_check := toCheckOf articles
  match existingOf env to_check with
  | .error e => (⟨0, 0, 0, [], some e⟩, env.table)
  | .ok existing =>
    let br := buildRows existing arts
    if br.1 = [] then (⟨to_check.length, br.2, 0, [], none⟩, env.table)
    else
      match dbInsertRows env br.1 with
      | .error e => (⟨to_check.length, br.2, 0, [], some e⟩, env.table)
      | .ok (t2, ids) =>
        (⟨to_check.length, br.2, ids.length, ids.reduceOption, none⟩, t2)

/-! ### Branch equations of `insert_articles` -/

theorem insert_articles_sel_err {env : DBEnv} {b : List NormalizedArticle}
    {e : String} (hex : existingOf env (toCheckOf b) = .error e) :
    insert_articles env b = (⟨0, 0, 0, [], some e⟩, env.table) := by
  simp only [insert_articles, hex]

theorem insert_articles_no_rows {env : DBEnv} {b : List NormalizedArticle}
    {existing : List String}
    (hex : existingOf env (toCheckOf b) = .ok existing)
    (hrows : (buildRows existing (b.map canonArticle)).1 = []) :
    insert_articles env b =
      (⟨(toCheckOf b).length, (buildRows existing (b.map canonArticle)).2,
        0, [], none⟩, env.table) := by
  simp only [insert_articles, hex]
  rw [if_pos hrows]

theorem insert_articles_ins_err {env : DBEnv} {b : List NormalizedArticle}
    {existing : List String} {e : String}
    (hex : existingOf env (toCheckOf b) = .ok existing)
    (hrows : (buildRows existing (b.map canonArticle)).1 ≠ [])
    (hins : dbInsertRows env (buildRows existing (b.map canonArticle)).1 =
      .error e) :
    insert_articles env b =
      (⟨(toCheckOf b).length, (buildRows existing (b.map canonArticle)).2,
        0, [], some e⟩, env.table) := by
  simp only [insert_articles, hex]
  rw [if_neg hrows]
  simp only [hins]

theorem insert_articles_ins_ok {env : DBEnv} {b : List NormalizedArticle}
    {existing : List String} {t2 : List ArticleRow} {ids : List (Option Nat)}
    (hex : existingOf env (toCheckOf b) = .ok existing)
    (hrows : (buildRows existing (b.map canonArticle)).1 ≠ [])
    (hins : dbInsertRows env (buildRows existing (b.map canonArticle)).1 =
      .ok (t2, ids)) :
    insert_articles env b =
      (⟨(toCheckOf b).length, (buildRows existing (b.map canonArticle)).2,
        ids.length, ids.reduceOption, none⟩, t2) := by
  simp only [insert_articles, hex]
  rw [if_neg hrows]
  simp only [hins]

/-! ### Facts about the pieces -/

theorem truthyStr_ne_empty {o : Option String} {u : String}
    (h : truthyStr o = some u) : u ≠ "" := by
  match o with
  | none => exact Option.noConfusion h
  | some v =>
    rw [show truthyStr (some v) = if v = "" then none else some v from rfl]
      at h
    by_cases hv : v = ""
    · rw [if_pos hv] at h
      exact Option.noConfusion h
    · rw [if_neg hv] at h
      rw [Option.some.injEq] at h
      rw [← h]
      exact hv

theorem truthyUrl_ne_empty {a : NormalizedArticle} {u : String}
    (h : truthyUrl a = some u) : u ≠ "" := truthyStr_ne_empty h

theorem mem_toCheckOf {b : List NormalizedArticle} {u : String}
    (hu : u ∈ toCheckOf b) :
    ∃ a, a ∈ b.map canonArticle ∧ truthyUrl a = some u :=
  List.mem_filterMap.mp hu

theorem toCheckOf_mem {b : List NormalizedArticle} {a : NormalizedArticle}
    {u : String} (ha : a ∈ b.map canonArticle) (hu : truthyUrl a = some u) :
    u ∈ toCheckOf b :=
  List.mem_filterMap.mpr ⟨a, ha, hu⟩

theorem existingOf_sub {env : DBEnv} {tc l : List String}
    (h : existingOf env tc = .ok l) :
    ∀ u ∈ l, u ∈ env.table.map (fun r => r.url) := by
  unfold existingOf dbSelectUrls at h
  by_cases htc : tc = []
  · rw [if_pos htc, Except.ok.injEq] at h
    intro u hu
    rw [← h] at hu
    simp at hu
  · rw [if_neg htc] at h
    rcases hsel : env.selectErr with _ | e <;> simp only [hsel] at h
    · rw [Except.ok.injEq] at h
      intro u hu
      rw [← h] at hu
      exact List.mem_of_mem_filter (List.mem_of_mem_filter hu)
    · simp at h

theorem existingOf_of_selOk {env : DBEnv} {tc : List String}
    (hsel : env.selectErr = none) :
    existingOf env tc = .ok (if tc = [] then [] else
      ((env.table.map (fun r => r.url)).filter
        (fun u => decide (u ∈ tc))).filter (fun u => !(u == ""))) := by
  unfold existingOf dbSelectUrls
  simp only [hsel]
  by_cases htc : tc = []
  · rw [if_pos htc, if_pos htc]
  · rw [if_neg htc, if_neg htc]

theorem mem_existingOf {env : DBEnv} {tc l : List String}
    (hsel : env.selectErr = none) (hex : existingOf env tc = .ok l)
    {u : String} (hu : u ∈ tc)
    (hut : u ∈ env.table.map (fun r => r.url)) (hne : u ≠ "") : u ∈ l := by
  rw [@existingOf_of_selOk env tc hsel, Except.ok.injEq] at hex
  rw [← hex, if_neg (List.ne_nil_of_mem hu)]
  refine List.mem_filter.mpr
    ⟨List.mem_filter.mpr ⟨hut, decide_eq_true hu⟩, ?_⟩
  simp [hne]

theorem buildRows_all_skip {existing : List String}
    {arts : List NormalizedArticle}
    (h : ∀ a ∈ arts, ∀ u, truthyUrl a = some u → u ∈ existing) :
    buildRows existing arts = ([], arts.length) := by
  induction arts with
  | nil => rfl
  | cons a t ih =>
    have ht := ih (fun x hx u hu => h x (List.mem_cons_of_mem a hx) u hu)
    rcases htu : truthyUrl a with _ | u <;> simp only [buildRows, htu]
    · rw [ht]
      rfl
    · rw [if_pos (h a (List.mem_cons_self a t) u htu), ht]
      rfl

theorem buildRows_skip_mem {existing : List String}
    {arts : List NormalizedArticle}
    (h : (buildRows existing arts).1 = []) :
    ∀ a ∈ arts, ∀ u, truthyUrl a = some u → u ∈ existing := by
  induction arts with
  | nil => intro a ha; simp at ha
  | cons b t ih =>
    intro a ha u hu
    rcases htu : truthyUrl b with _ | v
    · have h' : (buildRows existing t).1 = [] := by
        simp only [buildRows, htu] at h
        exact h
      rcases List.mem_cons.mp ha with rfl | ha'
      · rw [htu] at hu
        exact Option.noConfusion hu
      · exact ih h' a ha' u hu
    · by_cases hv : v ∈ existing
      · have h' : (buildRows existing t).1 = [] := by
          simp only [buildRows, htu] at h
          rw [if_pos hv] at h
          exact h
        rcases List.mem_cons.mp ha with rfl | ha'
        · rw [htu, Option.some.injEq] at hu
          exact hu ▸ hv
        · exact ih h' a ha' u hu
      · exfalso
        simp only [buildRows, htu] at h
        rw [if_neg hv] at h
        simp at h

theorem buildRows_covers {existing : List String}
    {arts : List NormalizedArticle} {a : NormalizedArticle} {u : String}
    (ha : a ∈ arts) (hu : truthyUrl a = some u) (hne : u ∉ existing) :
    u ∈ (buildRows existing arts).1.map (fun r => r.url) := by
  induction arts with
  | nil => simp at ha
  | cons b t ih =>
    rcases List.mem_cons.mp ha with rfl | ha'
    · simp only [buildRows, hu]
      rw [if_neg hne]
      exact List.mem_cons.mpr (Or.inl rfl)
    · have hm := ih ha'
      rcases htu : truthyUrl b with _ | v <;> simp only [buildRows, htu]
      · exact hm
      · by_cases hv : v ∈ existing
        · rw [if_pos hv]
          exact hm
        · rw [if_neg hv]
          exact List.mem_cons_of_mem _ hm

theorem dbInsertRows_ok {env : DBEnv} {rows t2 : List ArticleRow}
    {ids : List (Option Nat)}
    (h : dbInsertRows env rows = .ok (t2, ids)) :
    t2 = env.table ++ rows ∧ (rows.map (fun r => r.url)).Nodup ∧
    (∀ r ∈ rows, ∀ t ∈ env.table, r.url ≠ t.url) ∧
    ids = (List.range rows.length).map (fun i => env.respIds.getD i none) := by
  unfold dbInsertRows at h
  rcases hins : env.insertErr with _ | e <;> simp only [hins] at h
  · by_cases hc : (rows.map (fun r => r.url)).Nodup ∧
        ∀ r ∈ rows, ∀ t ∈ env.table, r.url ≠ t.url
    · rw [if_pos hc, Except.ok.injEq, Prod.mk.injEq] at h
      exact ⟨h.1.symm, hc.1, hc.2, h.2.symm⟩
    · rw [if_neg hc] at h
      simp at h
  · simp at h

theorem reduceOption_all_none {l : List (Option Nat)}
    (h : ∀ o ∈ l, o = none) : l.reduceOption = [] := by
  induction l with
  | nil => rfl
  | cons o t ih =>
    rw [show o = none from h o (List.mem_cons_self o t),
      List.reduceOption_cons_of_none]
    exact ih fun x hx => h x (List.mem_cons_of_mem o hx)

theorem getD_none_of_all_none {l : List (Option Nat)}
    (h : ∀ o ∈ l, o = none) (i : Nat) : l.getD i none = none := by
  induction l generalizing i with
  | nil => rfl
  | cons o t ih =>
    match i with
    | 0 => exact h o (List.mem_cons_self o t)
    | i + 1 => exact ih (fun x hx => h x (List.mem_cons_of_mem o hx)) i

theorem nodup_table_append {table rows : List ArticleRow}
    (ht : (table.map (fun r => r.url)).Nodup)
    (hr : (rows.map (fun r => r.url)).Nodup)
    (hd : ∀ r ∈ rows, ∀ t ∈ table, r.url ≠ t.url) :
    ((table ++ rows).map (fun r => r.url)).Nodup := by
  rw [List.map_append, List.nodup_append]
  refine ⟨ht, hr, ?_⟩
  intro x hx hy
  obtain ⟨t, htm, rfl⟩ := List.mem_map.mp hx
  obtain ⟨r, hrm, he⟩ := List.mem_map.mp hy
  exact hd r hrm t htm he

/-- Helper (shared): after a call of `insert_articles` that reports no
error, every canonical url of the batch is stored, and uniqueness of the
stored urls is preserved. -/
theorem insert_success_inv {env : DBEnv} {b : List NormalizedArticle}
    (h : (insert_articles env b).1.error = none) :
    (∀ u ∈ toCheckOf b,
      u ∈ ((insert_articles env b).2).map (fun r => r.url)) ∧
    ((env.table.map (fun r => r.url)).Nodup →
      (((insert_articles env b).2).map (fun r => r.url)).Nodup) := by
  rcases hex : existingOf env (toCheckOf b) with e | existing
  · rw [insert_articles_sel_err hex] at h
    simp at h
  · by_cases hrows : (buildRows existing (b.map canonArticle)).1 = []
    · rw [insert_articles_no_rows hex hrows]
      constructor
      · intro u hu
        obtain ⟨a, ha, hau⟩ := mem_toCheckOf hu
        exact existingOf_sub hex u (buildRows_skip_mem hrows a ha u hau)
      · intro hnd
        exact hnd
    · rcases hins : dbInsertRows env
          (buildRows existing (b.map canonArticle)).1 with e | p
      · rw [insert_articles_ins_err hex hrows hins] at h
        simp at h
      · obtain ⟨t2, ids⟩ := p
        obtain ⟨ht2, hnr, hdisj, -⟩ := dbInsertRows_ok hins
        rw [insert_articles_ins_ok hex hrows hins]
        subst ht2
        constructor
        · intro u hu
          obtain ⟨a, ha, hau⟩ := mem_toCheckOf hu
          by_cases hmem : u ∈ existing
          · obtain ⟨t, htm, hteq⟩ :=
              List.mem_map.mp (existingOf_sub hex u hmem)
            exact List.mem_map.mpr
              ⟨t, List.mem_append.mpr (Or.inl htm), hteq⟩
          · obtain ⟨r, hrm, hreq⟩ :=
              List.mem_map.mp (buildRows_covers ha hau hmem)
            exact List.mem_map.mpr
              ⟨r, List.mem_append.mpr (Or.inr hrm), hreq⟩
        · intro hnd
          exact nodup_table_append hnd hnr hdisj

/-- Helper (shared): when every canonical url of the batch is already
stored and the pre-check query is healthy, the call skips everything and
inserts nothing. -/
theorem insert_all_dup {env : DBEnv} {b : List NormalizedArticle}
    (hsel : env.selectErr = none)
    (hsub : ∀ u ∈ toCheckOf b, u ∈ env.table.map (fun r => r.url)) :
    insert_articles env b =
      (⟨(toCheckOf b).length, b.length, 0, [], none⟩, env.table) := by
  rcases hex : existingOf env (toCheckOf b) with e | existing
  · rw [@existingOf_of_selOk env (toCheckOf b) hsel] at hex
    simp at hex
  · have hskip : ∀ a ∈ b.map canonArticle, ∀ u,
        truthyUrl a = some u → u ∈ existing := by
      intro a ha u hu
      have htc := toCheckOf_mem ha hu
      exact mem_existingOf hsel hex htc (hsub u htc) (truthyUrl_ne_empty hu)
    have hbr := buildRows_all_skip hskip
    have hrows : (buildRows existing (b.map canonArticle)).1 = [] := by
      rw [hbr]
    rw [insert_articles_no_rows hex hrows, hbr, List.length_map]

/-! ### Claims about the store -/

/-- Claim C1: store idempotence on repeated batches over the spec-modelled
datastore — after a successful `insert_articles` call on a batch, a second
call whose canonical urls all occurred in the first batch (the same batch,
or url variants with equal canonical forms) inserts 0 rows, returns no
ids, reports every article as skipped and every url-bearing one as
checked, and leaves the table unchanged; starting from a duplicate-free
table, at most one stored row exists per canonical url. -/
theorem claim_C1 (env₀ env₁ : DBEnv) (b₁ b₂ : List NormalizedArticle)
    (h1 : (insert_articles env₀ b₁).1.error = none)
    (htab : env₁.table = (insert_articles env₀ b₁).2)
    (hsel : env₁.selectErr = none)
    (hsub : ∀ u ∈ toCheckOf b₂, u ∈ toCheckOf b₁)
    (hnd : (env₀.table.map (fun r => r.url)).Nodup) :
    insert_articles env₁ b₂ =
      (⟨(toCheckOf b₂).length, b₂.length, 0, [], none⟩, env₁.table) ∧
    (env₁.table.map (fun r => r.url)).Nodup := by
  obtain ⟨hstore, hndkeep⟩ := insert_success_inv h1
  constructor
  · apply insert_all_dup hsel
    intro u hu
    rw [htab]
    exact hstore u (hsub u hu)
  · rw [htab]
    exact hndkeep hnd

/-- The spec's dedup scenario (§8): first batch with a
tracking-parameter url. -/
def articleW1 : NormalizedArticle :=
  ⟨"gma", some "news", none, "Budget probe", some "https://X/a/1?utm=x#frag",
    some "c", some "2026-01-01T00:00:00"⟩

/-- The retry with a url variant that canonicalizes to the same string. -/
def articleW2 : NormalizedArticle :=
  ⟨"gma", some "news", none, "Budget probe", some "https://X/a/1/",
    some "c", some "2026-01-01T00:00:00"⟩

/-- Environment of the first call: empty table, healthy queries, insert
response carrying an id. -/
def envW1 : DBEnv := ⟨[], none, none, [some 7]⟩

/-- Environment of the second call: the table left by the first call. -/
def envW2 : DBEnv := ⟨(insert_articles envW1 [articleW1]).2, none, none, []⟩

/-- Witness for C1: the spec's dedup scenario — both urls canonicalize to
`https://x/a/1`; the first call inserts one row, the second checks one
url, skips it, inserts nothing. -/
theorem claim_C1_witness :
    ((insert_articles envW1 [articleW1]).1.error = none) ∧
    (toCheckOf [articleW2] = ["https://x/a/1"] ∧
      toCheckOf [articleW1] = ["https://x/a/1"]) ∧
    ((insert_articles envW1 [articleW1]).1.inserted = 1) ∧
    (insert_articles envW2 [articleW2] =
        (⟨(toCheckOf [articleW2]).length, [articleW2].length, 0, [], none⟩,
          envW2.table) ∧
      (envW2.table.map (fun r => r.url)).Nodup) :=
  ⟨rfl, ⟨rfl, rfl⟩, rfl,
    claim_C1 envW1 envW2 [articleW1] [articleW2] rfl rfl rfl
      (by decide) (by decide)⟩

/-- Claim C6 counterexample: the insert response reports one inserted row
but carries no id, and `insert_articles` returns `inserted = 1` with
empty `inserted_ids` — no read-back recovery happens. -/
theorem claim_C6_counterexample :
    (insert_articles ⟨[], none, none, [none]⟩
      [⟨"gma", none, none, "Budget hearing", some "http://x/a", none,
        none⟩]).1.inserted = 1 ∧
    (insert_articles ⟨[], none, none, [none]⟩
      [⟨"gma", none, none, "Budget hearing", some "http://x/a", none,
        none⟩]).1.inserted_ids = [] := by
  constructor
  · rfl
  · rfl

/-- Claim C6 (amended): `insert_articles` has no id read-back fallback —
`inserted_ids` lists exactly the ids present in the insert response, so
when the response carries no ids at all, `inserted_ids` is empty no
matter how many rows were inserted. -/
theorem claim_C6 (env : DBEnv) (articles : List NormalizedArticle)
    (hids : ∀ o ∈ env.respIds, o = none) :
    (insert_articles env articles).1.inserted_ids = [] := by
  rcases hex : existingOf env (toCheckOf articles) with e | existing
  · rw [insert_articles_sel_err hex]
  · by_cases hrows :
        (buildRows existing (articles.map canonArticle)).1 = []
    · rw [insert_articles_no_rows hex hrows]
    · rcases hins : dbInsertRows env
          (buildRows existing (articles.map canonArticle)).1
          with e | p
      · rw [insert_articles_ins_err hex hrows hins]
      · obtain ⟨t2, ids⟩ := p
        obtain ⟨-, -, -, hid⟩ := dbInsertRows_ok hins
        rw [insert_articles_ins_ok hex hrows hins]
        subst hid
        exact reduceOption_all_none (fun o ho => by
          obtain ⟨i, -, rfl⟩ := List.mem_map.mp ho
          exact getD_none_of_all_none hids i)

/-- Witness for C6 (amended): an environment whose insert response carries
no ids at all yields empty `inserted_ids`. -/
theorem claim_C6_witness :
    (∀ o ∈ ([none, none] : List (Option Nat)), o = none) ∧
    (insert_articles ⟨[], none, none, [none, none]⟩
      [⟨"gma", none, none, "Tax audit", some "http://x/b", none,
        none⟩]).1.inserted_ids = [] :=
  ⟨by decide, claim_C6 ⟨[], none, none, [none, none]⟩
    [⟨"gma", none, none, "Tax audit", some "http://x/b", none, none⟩]
    (by decide)⟩

/-- Claim C10: error atomicity of the duplicate pre-check — when the batch
has at least one url-bearing article and the select query fails,
`insert_articles` attempts no insert, returns all-zero counters with the
error message, and leaves the table unchanged. -/
theorem claim_C10 (env : DBEnv) (articles : List NormalizedArticle)
    (e : String) (hsel : env.selectErr = some e)
    (hne : toCheckOf articles ≠ []) :
    insert_articles env articles = (⟨0, 0, 0, [], some e⟩, env.table) := by
  have hex : existingOf env (toCheckOf articles) = .error e := by
    unfold existingOf dbSelectUrls
    rw [if_neg hne]
    simp only [hsel]
  exact insert_articles_sel_err hex

/-- Witness for C10: a select failure aborts the call with zero counters
and the error message. -/
theorem claim_C10_witness :
    ((⟨[], some "connection reset", none, []⟩ : DBEnv).selectErr =
      some "connection reset") ∧
    (toCheckOf [⟨"gma", none, none, "Flood relief fund", some "http://x/c",
      none, none⟩] ≠ []) ∧
    (insert_articles ⟨[], some "connection reset", none, []⟩
        [⟨"gma", none, none, "Flood relief fund", some "http://x/c", none,
          none⟩] =
      (⟨0, 0, 0, [], some "connection reset"⟩, ([] : List ArticleRow))) :=
  ⟨rfl, by decide,
    claim_C10 ⟨[], some "connection reset", none, []⟩
      [⟨"gma", none, none, "Flood relief fund", some "http://x/c", none,
        none⟩] "connection reset" rfl (by decide)⟩

end TheEye
